import Mathlib

/-!
Shallow embedding of `mlsblk.c` (macOS port of lsblk): property-list model,
device-node forest builder, mount resolution, per-device enrichment, column
parsing and the three renderers.  External effects (popen of `diskutil`,
`getmntinfo`) are modelled by passing their parsed results as values; memory
allocation is assumed to succeed.  Heap nodes are represented by indices into
a store list, so aliasing in the C code (the flat index and the child lists
share the same `Node *`) is preserved exactly.
-/

set_option maxRecDepth 10000

/-- Model of a parsed CoreFoundation property-list value. -/
inductive CFValue where
  | str (s : String)
  | int (n : Int)
  | arr (xs : List CFValue)
  | dict (kvs : List (String × CFValue))
deriving Repr

instance : Inhabited CFValue := ⟨CFValue.int 0⟩

/-- CFDictionaryGetValue: value of the first binding of `key`, none when the
value is not a dictionary or the key is absent. -/
def dictGet (v : CFValue) (key : String) : Option CFValue :=
  match v with
  | CFValue.dict kvs => (kvs.find? (fun kv => kv.1 == key)).map (fun kv => kv.2)
  | _ => none

/-- cfstr of mlsblk.c applied to a possibly-NULL CFTypeRef: yields the string
when the ref is a CFString, NULL otherwise (allocation failure not modelled). -/
def cfstr (v : Option CFValue) : Option String :=
  match v with
  | some (CFValue.str s) => some s
  | _ => none

/-- cfint of mlsblk.c: CFNumber read as long long then cast to uint64_t;
anything else (including NULL) is 0. -/
def cfint (v : Option CFValue) : Nat :=
  match v with
  | some (CFValue.int n) => (n % ((2 : Int) ^ 64)).toNat
  | _ => 0

/-- strstr(hay, pat) != NULL. -/
def strstrB (hay pat : String) : Bool := decide (pat.toList <:+: hay.toList)

/-- strncmp(s, p, strlen(p)) == 0: does `s` begin with `p`? -/
def strncmpPfx (s p : String) : Bool := decide (p.toList <+: s.toList)

/-- content_to_fstype of mlsblk.c.  The C function writes into a 64-byte
buffer; the final verbatim branch truncates with the format `%.31s`. -/
def content_to_fstype (content : Option String) : String :=
  match content with
  | none => ""
  | some c =>
    if strstrB c "APFS" || strstrB c "41504653" then "apfs"
    else if strstrB c "HFS" || strstrB c "Apple_HFS" then "hfs"
    else if strstrB c "EFI" || strstrB c "C12A7328" then "vfat"
    else if strstrB c "GUID_partition_scheme" then ""
    else c.take 31

/-- The digit test `*p >= '0' && *p <= '9'` of name_cmp. -/
def isDigitC (c : Char) : Bool := decide ('0' ≤ c) && decide (c ≤ '9')

/-- Value of the decimal digits of a digit run. -/
def digitsVal (ds : List Char) : Nat := ds.foldl (fun a c => a * 10 + (c.toNat - 48)) 0

/-- strtoul(p, &p, 10) on the maximal leading digit run: its numeric value,
clamped at ULONG_MAX = 2^64 - 1 on overflow (as strtoul does). -/
def strtoulVal (l : List Char) : Nat := min (digitsVal (l.takeWhile isDigitC)) (2 ^ 64 - 1)

/-- Advance the cursor past the digit run consumed by strtoul. -/
def dropDigits (l : List Char) : List Char := l.dropWhile isDigitC

/-- Core loop of name_cmp (after the "disk" prefixes are skipped):
`while (*pa && *pb)` with the character / slice-separator / numeric-run rules,
then the final `(unsigned char)*pa - (unsigned char)*pb` on loop exit.
The C branch for `*pa == 's' && *pb == 's'` is unreachable (it is preceded by
the equal-character test), so it does not appear here.  Every loop iteration
strictly shortens the remaining input (the equal/digit branches advance both
cursors), so fuel exceeding the combined length makes the zero-fuel arm
unreachable; recursion is given as fuel so that the kernel can evaluate it. -/
def cmpCharsGo : Nat → List Char → List Char → Int
  | 0, _, _ => 0
  | fuel + 1, l, r =>
    match l, r with
    | [], [] => 0
    | [], b :: _ => -(b.toNat : Int)
    | a :: _, [] => (a.toNat : Int)
    | a :: as, b :: bs =>
      if a = b then cmpCharsGo fuel as bs
      else if a = 's' then 1
      else if b = 's' then -1
      else if isDigitC a && isDigitC b then
        let na := strtoulVal (a :: as)
        let nb := strtoulVal (b :: bs)
        if na = nb then cmpCharsGo fuel (dropDigits (a :: as)) (dropDigits (b :: bs))
        else if nb < na then 1 else -1
      else (a.toNat : Int) - (b.toNat : Int)

def cmpChars (a b : List Char) : Int := cmpCharsGo (a.length + b.length + 1) a b

/-- Skip the literal "disk" prefix, as `strncmp(a, "disk", 4) == 0 ? a+4 : a`. -/
def dropDisk : List Char → List Char
  | 'd' :: 'i' :: 's' :: 'k' :: rest => rest
  | l => l

/-- name_cmp of mlsblk.c.  The C NULL guard cannot arise in the model. -/
def name_cmp (a b : String) : Int := cmpChars (dropDisk a.toList) (dropDisk b.toList)

/-- Unit-advancing loop of fmt_size.  The C loop divides a double by 1024
while `v >= 1024 && u < 5`; dividing by a power of two is exact scaling, so
the test is equivalent to `bytes >= 1024^(u+1)` (thresholds are at most
1024^5 = 2^50 < 2^53, below any double rounding of a uint64 count). -/
def sizeUnitGo (bytes : Nat) : Nat → Nat → Nat
  | 0, u => u
  | fuel + 1, u => if 1024 ^ (u + 1) ≤ bytes ∧ u < 5 then sizeUnitGo bytes fuel (u + 1) else u

def sizeUnit (bytes : Nat) : Nat := sizeUnitGo bytes 5 0

/-- Correctly-rounded value of num/den to the nearest integer, ties to even:
the rounding performed by `snprintf("%.1f")` on the (here exact) quotient. -/
def roundNearEven (num den : Nat) : Nat :=
  let q := num / den
  let r := num % den
  if den < 2 * r then q + 1
  else if 2 * r < den then q
  else if q % 2 = 0 then q else q + 1

def sizeUnits : List String := ["B", "K", "M", "G", "T", "P"]

/-- fmt_size of mlsblk.c: human-scaled base-1024 size with one decimal and a
single unit letter.  The double arithmetic in the C loop is exact whenever
`bytes < 2^53` (true for every size exercised by the claims), so the rational
computation below reproduces the printed digits. -/
def fmt_size (bytes : Nat) : String :=
  let u := sizeUnit bytes
  let t := roundNearEven (bytes * 10) (1024 ^ u)
  toString (t / 10) ++ "." ++ toString (t % 10) ++ sizeUnits.getD u "B"

/-- One device node: the struct Node of mlsblk.c, with heap pointers replaced
by indices into the store of `BuildState`. -/
structure NodeData where
  name : String
  size : Nat
  type : String
  mountpoint : String
  fstype : String
  label : String
  uuid : String
  parent : Option Nat
  children : List Nat
deriving Repr, DecidableEq, Inhabited

/-- node_create (allocation assumed to succeed). -/
def node_create (name : String) (size : Nat) (ty : String) : NodeData :=
  { name := name, size := size, type := ty, mountpoint := "", fstype := "",
    label := "", uuid := "", parent := none, children := [] }

/-- The mutable heap of the builder: `store` is the flat index (`NodeArray
flat`, one entry per created node, in creation order; a node's id is its
position) and `roots` is the `Node *roots[64]` array together with nroots. -/
structure BuildState where
  store : List NodeData
  roots : List Nat
deriving Repr, DecidableEq, Inhabited

/-- Dereference a node id (out-of-range ids never arise from the builder). -/
def getNode (st : BuildState) (i : Nat) : NodeData := st.store.getD i default

/-- In-place update of the node with id `i`. -/
def setNodeF (st : BuildState) (i : Nat) (f : NodeData → NodeData) : BuildState :=
  { st with store := st.store.set i (f (getNode st i)) }

/-- The `for (i = 0; i < flat->n; i++) strcmp` scan of ensure_node: position
of the first node carrying the given name. -/
def findIdxByName (nm : String) : List NodeData → Option Nat
  | [] => none
  | nd :: rest => if nd.name == nm then some 0 else (findIdxByName nm rest).map (· + 1)

/-- ensure_node of mlsblk.c: linear scan of the flat index by name; on a miss
create the node and append it (the realloc growth of the array is immaterial
to the list model). -/
def ensure_node (st : BuildState) (name : String) (size : Nat) (ty : String) :
    Nat × BuildState :=
  match findIdxByName name st.store with
  | some i => (i, st)
  | none => (st.store.length, { st with store := st.store ++ [node_create name size ty] })

/-- node_add_child of mlsblk.c: set the child's parent pointer then append the
child to the parent's (growable) child array. -/
def node_add_child (st : BuildState) (p c : Nat) : BuildState :=
  let st1 := setNodeF st c (fun nd => { nd with parent := some p })
  setNodeF st1 p (fun nd => { nd with children := nd.children ++ [c] })

/-- add_partition of mlsblk.c.  `disk_node` is never NULL at its single call
site (collect_nodes skips the entry when its own node is unavailable), so it
is a plain id here; allocation failure of ensure_node is not modelled. -/
def add_partition (st : BuildState) (disk_node : Nat) (part : CFValue) : BuildState :=
  match cfstr (dictGet part "DeviceIdentifier") with
  | none => st
  | some idstr =>
    let sz := cfint (dictGet part "Size")
    let contentstr := cfstr (dictGet part "Content")
    let pr := ensure_node st idstr sz "part"
    let st1 := setNodeF pr.2 pr.1 (fun nd => { nd with fstype := content_to_fstype contentstr })
    node_add_child st1 disk_node pr.1

/-- add_apfs_volume of mlsblk.c.  Mount point and volume name are copied only
when non-empty; the UUID is copied whenever the lookup yields a string (even
empty); the fstype is finally forced to the literal "apfs". -/
def add_apfs_volume (st : BuildState) (container_node : Nat) (vol : CFValue) : BuildState :=
  match cfstr (dictGet vol "DeviceIdentifier") with
  | none => st
  | some idstr =>
    let sz := cfint (dictGet vol "Size")
    let pr := ensure_node st idstr sz "part"
    let st1 := node_add_child pr.2 container_node pr.1
    let st2 := match cfstr (dictGet vol "MountPoint") with
      | some mp => if mp ≠ "" then setNodeF st1 pr.1 (fun nd => { nd with mountpoint := mp }) else st1
      | none => st1
    let st3 := match cfstr (dictGet vol "VolumeName") with
      | some lab => if lab ≠ "" then setNodeF st2 pr.1 (fun nd => { nd with label := lab }) else st2
      | none => st2
    let st4 := match cfstr (dictGet vol "VolumeUUID") with
      | some uu => setNodeF st3 pr.1 (fun nd => { nd with uuid := uu })
      | none => st3
    setNodeF st4 pr.1 (fun nd => { nd with fstype := "apfs" })

/-- Partition and APFS-volume sub-sequences of one top-level entry (the tail
of the collect_nodes loop body, after the root/parent bookkeeping). -/
def processEntryRest (st : BuildState) (disk_node : Nat) (d : CFValue) : BuildState :=
  let st1 := match dictGet d "Partitions" with
    | some (CFValue.arr parts) => parts.foldl (fun s p => add_partition s disk_node p) st
    | _ => st
  match dictGet d "APFSVolumes" with
  | some (CFValue.arr vols) => vols.foldl (fun s v => add_apfs_volume s disk_node v) st1
  | _ => st1

/-- Identifier, size, classification and fstype handling at the head of the
collect_nodes loop body: create or fetch the entry's node (disk when the
content description names a partition scheme or an APFS container, part
otherwise) and, when a content string is present, set its fstype. -/
def processEntryNode (st : BuildState) (d : CFValue) (idstr : String) : Nat × BuildState :=
  let sz := cfint (dictGet d "Size")
  let contentstr := cfstr (dictGet d "Content")
  let is_container := match contentstr with
    | some c => strstrB c "Apple_APFS_Container"
    | none => false
  let is_whole := match contentstr with
    | some c => strstrB c "GUID_partition_scheme" || is_container
    | none => false
  let pr := ensure_node st idstr sz (if is_whole then "disk" else "part")
  match contentstr with
  | some _ =>
    (pr.1, setNodeF pr.2 pr.1 (fun nd => { nd with fstype := content_to_fstype contentstr }))
  | none => (pr.1, pr.2)

/-- Body of the collect_nodes loop for one element of AllDisksAndPartitions.
A non-dictionary element or a missing/non-string DeviceIdentifier is skipped;
at top level (`parent = none`) the 64-root cap makes the loop `continue`
before the roots append and before the partition/volume sub-walks. -/
def processEntry (parent : Option Nat) (st : BuildState) (d : CFValue) : BuildState :=
  match d with
  | CFValue.dict _ =>
    match cfstr (dictGet d "DeviceIdentifier") with
    | none => st
    | some idstr =>
      let pr := processEntryNode st d idstr
      match parent with
      | none =>
        if 64 ≤ pr.2.roots.length then pr.2
        else processEntryRest { pr.2 with roots := pr.2.roots ++ [pr.1] } pr.1 d
      | some p => processEntryRest (node_add_child pr.2 p pr.1) pr.1 d
  | _ => st

/-- collect_nodes of mlsblk.c.  The declared recursion is never used: the
function only walks the one top-level sequence (build_tree passes parent =
NULL), so it is a plain fold over the array. -/
def collect_nodes (parent : Option Nat) (all : List CFValue) (st : BuildState) : BuildState :=
  all.foldl (processEntry parent) st

/-- Comparator wiring of node_cmp: qsort ascending by name_cmp on names. -/
def leNode (st : BuildState) (i j : Nat) : Bool := decide (name_cmp (getNode st i).name (getNode st j).name ≤ 0)

def insertSorted (le : Nat → Nat → Bool) (x : Nat) : List Nat → List Nat
  | [] => [x]
  | y :: ys => if le x y then x :: y :: ys else y :: insertSorted le x ys

/-- A comparison sort agreeing with qsort on the comparator: qsort's order on
comparator-equal elements is unspecified, so any comparator-consistent sort is
a faithful model. -/
def sortByLe (le : Nat → Nat → Bool) : List Nat → List Nat
  | [] => []
  | x :: xs => insertSorted le x (sortByLe le xs)

/-- sort_children of mlsblk.c: with at most one child it returns at once (in
particular it does not descend through an only child); otherwise it qsorts
the child array and recurses into each child.  The C recursion consumes one
tree level per call; `fuel` bounds the depth (build_tree supplies more fuel
than any acyclic store can use; on a cyclic store the C program would not
terminate). -/
def sort_children : Nat → BuildState → Nat → BuildState
  | 0, st, _ => st
  | fuel + 1, st, i =>
    if (getNode st i).children.length ≤ 1 then st
    else
      let sorted := sortByLe (leNode st) (getNode st i).children
      let st1 := setNodeF st i (fun nd => { nd with children := sorted })
      sorted.foldl (fun s c => sort_children fuel s c) st1

/-- The empty builder state of main (flat = {0}, nroots = 0). -/
def initState : BuildState := { store := [], roots := [] }

/-- build_tree of mlsblk.c: require the AllDisksAndPartitions array, collect
the forest, then sort every level and the roots. -/
def build_tree (plist : CFValue) : Option BuildState :=
  match dictGet plist "AllDisksAndPartitions" with
  | some (CFValue.arr all) =>
    let st1 := collect_nodes none all initState
    let st2 := st1.roots.foldl (fun s r => sort_children (s.store.length + 1) s r) st1
    some { st2 with roots := sortByLe (leNode st2) st2.roots }
  | _ => none

/-- set_mountpoint_recursive of mlsblk.c: overwrite the mount point at a name
match and stop there, otherwise recurse into every child (there is no early
exit from the child loop).  `fuel` bounds the recursion depth as above. -/
def set_mountpoint_recursive : Nat → BuildState → Nat → String → String → BuildState
  | 0, st, _, _, _ => st
  | fuel + 1, st, i, src, tgt =>
    if (getNode st i).name = src then
      setNodeF st i (fun nd => { nd with mountpoint := tgt })
    else
      (getNode st i).children.foldl
        (fun s c => set_mountpoint_recursive fuel s c src tgt) st

/-- Model-side decidable test: does the subtree of `i` contain a node named
`s` (within `fuel` levels)?  Used to state the no-match case of C6. -/
def subtreeHasName : Nat → BuildState → Nat → String → Bool
  | 0, _, _, _ => false
  | fuel + 1, st, i, s =>
    (getNode st i).name == s ||
      (getNode st i).children.any (fun c => subtreeHasName fuel st c s)

/-- One getmntinfo entry of fill_mountpoints: keep entries whose source path
begins with "/dev/", strip that prefix, and walk every root's subtree. -/
def fillMountEntry (st : BuildState) (e : String × String) : BuildState :=
  if strncmpPfx e.1 "/dev/" then
    st.roots.foldl
      (fun s r => set_mountpoint_recursive (s.store.length + 1) s r (e.1.drop 5) e.2) st
  else st

/-- fill_mountpoints of mlsblk.c over the parsed mount table (NULL entry
strings cannot arise in the model). -/
def fill_mountpoints (st : BuildState) (mnts : List (String × String)) : BuildState :=
  mnts.foldl fillMountEntry st

/-- get_info_plist's type guard: the per-device lookup result reaches
fill_info only when it parsed to a dictionary. -/
def getInfoPlist (raw : Option CFValue) : Option CFValue :=
  match raw with
  | some (CFValue.dict kvs) => some (CFValue.dict kvs)
  | _ => none

/-- FilesystemType step of fill_info: overwrite whenever the lookup yields a
string (even an empty one). -/
def applyFstype (st : BuildState) (i : Nat) (info : CFValue) : BuildState :=
  match cfstr (dictGet info "FilesystemType") with
  | some s => setNodeF st i (fun nd => { nd with fstype := s })
  | none => st

/-- VolumeName step of fill_info: overwrite the label only if non-empty. -/
def applyLabel1 (st : BuildState) (i : Nat) (info : CFValue) : BuildState :=
  match cfstr (dictGet info "VolumeName") with
  | some s => if s ≠ "" then setNodeF st i (fun nd => { nd with label := s }) else st
  | none => st

/-- MediaName fallback of fill_info: when the label is still empty, overwrite
it with a non-empty MediaName. -/
def applyLabel2 (st : BuildState) (i : Nat) (info : CFValue) : BuildState :=
  if (getNode st i).label = "" then
    match cfstr (dictGet info "MediaName") with
    | some s => if s ≠ "" then setNodeF st i (fun nd => { nd with label := s }) else st
    | none => st
  else st

/-- VolumeName / MediaName steps of fill_info. -/
def applyLabel (st : BuildState) (i : Nat) (info : CFValue) : BuildState :=
  applyLabel2 (applyLabel1 st i info) i info

/-- UUID step of fill_info: VolumeUUID preferred; DiskUUID only consulted when
the VolumeUUID key is entirely absent; copied whenever it is a string. -/
def applyUuid (st : BuildState) (i : Nat) (info : CFValue) : BuildState :=
  match dictGet info "VolumeUUID" with
  | some v =>
    match cfstr (some v) with
    | some s => setNodeF st i (fun nd => { nd with uuid := s })
    | none => st
  | none =>
    match cfstr (dictGet info "DiskUUID") with
    | some s => setNodeF st i (fun nd => { nd with uuid := s })
    | none => st

/-- MountPoint step of fill_info: overwrite only when present and non-empty. -/
def applyMount (st : BuildState) (i : Nat) (info : CFValue) : BuildState :=
  match cfstr (dictGet info "MountPoint") with
  | some s => if s ≠ "" then setNodeF st i (fun nd => { nd with mountpoint := s }) else st
  | none => st

/-- fill_info of mlsblk.c on the (already type-checked) result of the
per-device lookup; a failed lookup leaves the node untouched. -/
def fill_info (st : BuildState) (i : Nat) (info : Option CFValue) : BuildState :=
  match info with
  | none => st
  | some d => applyMount (applyUuid (applyLabel (applyFstype st i d) i d) i d) i d

/-- The -f enrichment loop of main: one lookup per flat-index entry, keyed by
the node's name; `infoOf` is the behaviour of `diskutil info -plist`. -/
def fillInfoAll (st : BuildState) (infoOf : String → Option CFValue) : BuildState :=
  (List.range st.store.length).foldl
    (fun s i => fill_info s i (getInfoPlist (infoOf (getNode s i).name))) st

/-- The column enumeration of mlsblk.c. -/
inductive Col where
  | name | size | type | mountpoint | fstype | label | uuid
deriving Repr, DecidableEq

def colName : Col → String
  | Col.name => "NAME"
  | Col.size => "SIZE"
  | Col.type => "TYPE"
  | Col.mountpoint => "MOUNTPOINT"
  | Col.fstype => "FSTYPE"
  | Col.label => "LABEL"
  | Col.uuid => "UUID"

def colAll : List Col :=
  [Col.name, Col.size, Col.type, Col.mountpoint, Col.fstype, Col.label, Col.uuid]

/-- tolower on a byte in the C locale, read off as a code point. -/
def lowerByte (c : Char) : Nat := if 65 ≤ c.toNat ∧ c.toNat ≤ 90 then c.toNat + 32 else c.toNat

/-- strcasecmp(a, b) == 0 (both sides folded through tolower). -/
def strcaseEq (a b : String) : Bool := a.toList.map lowerByte == b.toList.map lowerByte

/-- The `for (c = 0; c < COL_MAX; ...) strcasecmp` scan of parse_columns. -/
def lookupCol (tok : String) : Option Col := colAll.find? (fun c => strcaseEq tok (colName c))

/-- The comma-separated fields of a string (splitting kept structural so that
it evaluates in proofs; empty fields are produced between adjacent commas). -/
def splitCommaGo : List Char → List Char → List String
  | [], cur => [String.mk cur.reverse]
  | c :: cs, cur =>
    if c = ',' then String.mk cur.reverse :: splitCommaGo cs []
    else splitCommaGo cs (c :: cur)

def splitComma (s : String) : List String := splitCommaGo s.toList []

/-- strtok(s, ",") token list followed by the per-token leading-space strip:
strtok yields the non-empty fields between commas. -/
def strTokens (s : String) : List String :=
  ((splitComma s).filter (fun t => t ≠ "")).map
    (fun t => String.mk (t.toList.dropWhile (fun c => c == ' ')))

/-- Token loop of parse_columns: unknown names fall off the column scan and
are skipped; a recognized name is appended unless 32 are already collected,
in which case the function fails (returns -1, here none). -/
def parseColsGo : List String → List Col → Option (List Col)
  | [], acc => some acc
  | t :: ts, acc =>
    match lookupCol t with
    | none => parseColsGo ts acc
    | some c => if 32 ≤ acc.length then none else parseColsGo ts (acc ++ [c])

/-- parse_columns of mlsblk.c (strdup failure not modelled). -/
def parse_columns (ostr : String) : Option (List Col) := parseColsGo (strTokens ostr) []

/-- parse_output_option of mlsblk.c: NULL or empty -o falls back to the
default column list. -/
def parse_output_option (o : Option String) : Option (List Col) :=
  match o with
  | none => parse_columns "NAME,SIZE,TYPE,MOUNTPOINT"
  | some s => if s = "" then parse_columns "NAME,SIZE,TYPE,MOUNTPOINT" else parse_columns s

/-- One non-NAME cell as printed by the tree renderers: a separating space is
emitted unconditionally, then the value (`mp[0] ? mp : ""` is just `mp`). -/
def cellStr (nd : NodeData) (sizebuf : String) (c : Col) : String :=
  match c with
  | Col.name => ""
  | Col.size => " " ++ sizebuf
  | Col.type => " " ++ nd.type
  | Col.mountpoint => " " ++ nd.mountpoint
  | Col.fstype => " " ++ nd.fstype
  | Col.label => " " ++ nd.label
  | Col.uuid => " " ++ nd.uuid

/-- The `for (c = 1; c < ncols; c++)` column loop shared by the root rows and
print_tree rows. -/
def restCols (cols : List Col) (nd : NodeData) (sizebuf : String) : String :=
  (cols.drop 1).foldl (fun acc c => acc ++ cellStr nd sizebuf c) ""

/-- print_tree of mlsblk.c, producing the printed text.  `pre` is the prefix
argument and `lastb` the last-sibling flag of the node itself (used, as in
the C, for the continuation glyph of the grandchild prefix). -/
def print_tree : Nat → BuildState → Nat → List Col → String → Bool → String
  | 0, _, _, _, _, _ => ""
  | fuel + 1, st, i, cols, pre, lastb =>
    let childPre := pre ++ (if lastb then " " else "│") ++ "  "
    let n := (getNode st i).children.length
    (List.range n).foldl
      (fun acc k =>
        let c := (getNode st i).children.getD k 0
        let isLast := k == n - 1
        acc ++ pre ++ (if isLast then "└" else "├") ++ "── " ++ (getNode st c).name
          ++ restCols cols (getNode st c) (fmt_size (getNode st c).size) ++ "\n"
          ++ print_tree fuel st c cols childPre isLast) ""

/-- Header row shared by the tree and list formats. -/
def headerLine (cols : List Col) : String := String.intercalate " " (cols.map colName)

/-- Tree output of main (header, then per root: unindented row and subtree). -/
def printTreeMain (st : BuildState) (cols : List Col) : String :=
  headerLine cols ++ "\n" ++
    (List.range st.roots.length).foldl
      (fun acc k =>
        let r := st.roots.getD k 0
        acc ++ (getNode st r).name
          ++ restCols cols (getNode st r) (fmt_size (getNode st r).size) ++ "\n"
          ++ print_tree (st.store.length + 1) st r cols "  "
              (k == st.roots.length - 1 && (getNode st r).children.length == 0)) ""

/-- One row of the list format: every selected column (NAME included), space
separated. -/
def cellVal (nd : NodeData) (sizebuf : String) (c : Col) : String :=
  match c with
  | Col.name => nd.name
  | Col.size => sizebuf
  | Col.type => nd.type
  | Col.mountpoint => nd.mountpoint
  | Col.fstype => nd.fstype
  | Col.label => nd.label
  | Col.uuid => nd.uuid

def print_list_dfs : Nat → BuildState → Nat → List Col → String
  | 0, _, _, _ => ""
  | fuel + 1, st, i, cols =>
    String.intercalate " " (cols.map (cellVal (getNode st i) (fmt_size (getNode st i).size))) ++ "\n"
      ++ (getNode st i).children.foldl (fun acc c => acc ++ print_list_dfs fuel st c cols) ""

/-- print_list of mlsblk.c: header then full pre-order rows. -/
def print_list (st : BuildState) (cols : List Col) : String :=
  headerLine cols ++ "\n" ++
    st.roots.foldl (fun acc r => acc ++ print_list_dfs (st.store.length + 1) st r cols) ""

def spacesN (n : Nat) : String := String.mk (List.replicate n ' ')

/-- emit_json of mlsblk.c (braces written with their escapes). -/
def emit_json : Nat → BuildState → Nat → Nat → Bool → String
  | 0, _, _, _, _ => ""
  | fuel + 1, st, i, depth, first =>
    let nd := getNode st i
    (if first then "" else ",\n") ++ spacesN (depth * 2)
      ++ "\x7b\"name\":\"" ++ nd.name ++ "\",\"size\":" ++ toString nd.size
      ++ ",\"type\":\"" ++ nd.type ++ "\",\"mountpoint\":\"" ++ nd.mountpoint
      ++ "\",\"fstype\":\"" ++ nd.fstype ++ "\",\"label\":\"" ++ nd.label
      ++ "\",\"uuid\":\"" ++ nd.uuid ++ "\""
      ++ (if nd.children.length > 0 then
            ",\"children\":[" ++
              (List.range nd.children.length).foldl
                (fun acc k => acc ++ emit_json fuel st (nd.children.getD k 0) (depth + 1) (k == 0)) ""
              ++ "\n" ++ spacesN (depth * 2) ++ "]"
          else "")
      ++ "\x7d"

/-- print_json of mlsblk.c. -/
def print_json (st : BuildState) : String :=
  "\x7b\"blockdevices\":[\n" ++
    (List.range st.roots.length).foldl
      (fun acc k => acc ++ (if k == 0 then "" else ",\n")
        ++ emit_json (st.store.length + 1) st (st.roots.getD k 0) 1 true) ""
    ++ "\n]\x7d\n"

/-- Inputs of one run: the parsed bulk listing (none when `diskutil list`
could not be run or its output did not parse), the mount table, the behaviour
of the per-device lookup, and the command-line options. -/
structure MainInput where
  rawList : Option CFValue
  mounts : List (String × String)
  infoOf : String → Option CFValue
  optF : Bool
  optJ : Bool
  optList : Bool
  optO : Option String

/-- Observable outcome of a run: exit status, stdout, stderr lines. -/
structure RunResult where
  exitCode : Nat
  output : String
  errors : List String
deriving Repr, DecidableEq

/-- get_list_plist's type guard (popen/read failures are folded into a `none`
raw value, exactly the cases in which the C function returns NULL). -/
def get_list_plist (raw : Option CFValue) : Option CFValue :=
  match raw with
  | some (CFValue.dict kvs) => some (CFValue.dict kvs)
  | _ => none

/-- main of mlsblk.c after option parsing, as a function of the modelled
inputs.  Under -f without -o the column list is recomputed from the fixed
extended literal (whose parse always succeeds). -/
def mainRun (inp : MainInput) : RunResult :=
  match parse_output_option inp.optO with
  | none => { exitCode := 1, output := "", errors := ["mlsblk: invalid -o columns"] }
  | some cols0 =>
    let cols := if inp.optF = true ∧ inp.optO = none then
        (parse_columns "NAME,SIZE,TYPE,FSTYPE,MOUNTPOINT,LABEL,UUID").getD cols0
      else cols0
    match get_list_plist inp.rawList with
    | none => { exitCode := 1, output := "",
                errors := ["mlsblk: failed to run diskutil list -plist"] }
    | some plist =>
      match build_tree plist with
      | none => { exitCode := 1, output := "",
                  errors := ["mlsblk: failed to parse disk list"] }
      | some st0 =>
        let st1 := fill_mountpoints st0 inp.mounts
        let st2 := if inp.optF then fillInfoAll st1 inp.infoOf else st1
        let out := if inp.optJ then print_json st2
          else if inp.optList then print_list st2 cols
          else printTreeMain st2 cols
        { exitCode := 0, output := out, errors := [] }

/-- Names of the flat index, in creation order. -/
def names (st : BuildState) : List String := st.store.map (fun nd => nd.name)

/-- Names of the forest roots, in root order. -/
def rootNames (st : BuildState) : List String := st.roots.map (fun r => (getNode st r).name)

/-- Names of the children of node `r`, in child order. -/
def childNames (st : BuildState) (r : Nat) : List String :=
  (getNode st r).children.map (fun c => (getNode st c).name)

/-- The identifier under which a top-level entry is processed by
collect_nodes: none exactly when the entry is skipped (not a dictionary, or
DeviceIdentifier missing or not a string). -/
def validTopId (d : CFValue) : Option String :=
  match d with
  | CFValue.dict _ => cfstr (dictGet d "DeviceIdentifier")
  | _ => none

/-- Number of top-level entries of a listing that reach the root bookkeeping. -/
def countValid (all : List CFValue) : Nat := (all.filterMap validTopId).length

/-- Identifiers of the nested entries under `key` that add_partition or
add_apfs_volume would process. -/
def subIds (d : CFValue) (key : String) : List String :=
  match dictGet d key with
  | some (CFValue.arr xs) => xs.filterMap (fun x => cfstr (dictGet x "DeviceIdentifier"))
  | _ => []

/-- Every device identifier one top-level entry mentions (its own, then its
partitions', then its APFS volumes'); empty when the entry is skipped. -/
def entryIds (d : CFValue) : List String :=
  match validTopId d with
  | none => []
  | some s => s :: (subIds d "Partitions" ++ subIds d "APFSVolumes")

/-- All device identifiers of a bulk listing, with multiplicity. -/
def listingIds (all : List CFValue) : List String := (all.map entryIds).flatten

/-- Edge relation of the built forest: `c` is a stored child of `p`. -/
def childRel (st : BuildState) (p c : Nat) : Prop := c ∈ (getNode st p).children

/-- Is the bulk listing a dictionary holding the AllDisksAndPartitions
sequence?  This is precisely the success condition of get_list_plist plus
build_tree's structural check. -/
def bulkOk (raw : Option CFValue) : Bool :=
  match raw with
  | some (CFValue.dict kvs) =>
    match dictGet (CFValue.dict kvs) "AllDisksAndPartitions" with
    | some (CFValue.arr _) => true
    | _ => false
  | _ => false

/-- Count of the -o tokens that case-insensitively match a column name. -/
def recognizedCount (s : String) : Nat :=
  (strTokens s).countP (fun t => (lookupCol t).isSome)

/-- The spec scenario listing of C1: one disk with one APFS partition. -/
def c1Listing : CFValue :=
  CFValue.dict [("AllDisksAndPartitions", CFValue.arr [
    CFValue.dict [
      ("DeviceIdentifier", CFValue.str "disk0"),
      ("Size", CFValue.int 121332826112),
      ("Content", CFValue.str "GUID_partition_scheme"),
      ("Partitions", CFValue.arr [
        CFValue.dict [
          ("DeviceIdentifier", CFValue.str "disk0s1"),
          ("Size", CFValue.int 121213132800),
          ("Content", CFValue.str "Apple_APFS")]])]])]

/-- The spec scenario run of C1: defaults only, mount table mapping
/dev/disk0s1 to the filesystem root. -/
def c1Input : MainInput :=
  { rawList := some c1Listing, mounts := [("/dev/disk0s1", "/")],
    infoOf := fun _ => none, optF := false, optJ := false, optList := false,
    optO := none }

/-- A listing exercising the ordering law of C3: top-level entries disk10 and
disk2 arrive in reverse natural order, and disk2's partitions arrive as s9,
s10, s1. -/
def c3Listing : CFValue :=
  CFValue.dict [("AllDisksAndPartitions", CFValue.arr [
    CFValue.dict [
      ("DeviceIdentifier", CFValue.str "disk10"),
      ("Size", CFValue.int 1000),
      ("Content", CFValue.str "GUID_partition_scheme")],
    CFValue.dict [
      ("DeviceIdentifier", CFValue.str "disk2"),
      ("Size", CFValue.int 1000),
      ("Content", CFValue.str "GUID_partition_scheme"),
      ("Partitions", CFValue.arr [
        CFValue.dict [("DeviceIdentifier", CFValue.str "disk2s9"), ("Size", CFValue.int 10)],
        CFValue.dict [("DeviceIdentifier", CFValue.str "disk2s10"), ("Size", CFValue.int 10)],
        CFValue.dict [("DeviceIdentifier", CFValue.str "disk2s1"), ("Size", CFValue.int 10)]])]])]

def c3Built : BuildState := (build_tree c3Listing).getD initState

/-- A listing in which a whole disk lists itself as its own partition: the
claim C5 asserts well-formedness for every listing, and this input violates
it. -/
def c5Listing : CFValue :=
  CFValue.dict [("AllDisksAndPartitions", CFValue.arr [
    CFValue.dict [
      ("DeviceIdentifier", CFValue.str "disk0"),
      ("Size", CFValue.int 64),
      ("Content", CFValue.str "GUID_partition_scheme"),
      ("Partitions", CFValue.arr [
        CFValue.dict [("DeviceIdentifier", CFValue.str "disk0"), ("Size", CFValue.int 64)]])]])]

def c5Built : BuildState := (build_tree c5Listing).getD initState

/-- A forest in which two sibling nodes carry the same identifier (the
counterfactual situation C6 describes).  It cannot arise from the builder
(the flat index deduplicates), so it is constructed directly. -/
def c6State : BuildState :=
  { store := [
      { name := "disk9", size := 0, type := "disk", mountpoint := "", fstype := "",
        label := "", uuid := "", parent := none, children := [1, 2] },
      { name := "disk9s1", size := 0, type := "part", mountpoint := "", fstype := "",
        label := "", uuid := "", parent := some 0, children := [] },
      { name := "disk9s1", size := 0, type := "part", mountpoint := "", fstype := "",
        label := "", uuid := "", parent := some 0, children := [] }],
    roots := [0] }

def c6Result : BuildState := fill_mountpoints c6State [("/dev/disk9s1", "/Volumes/X")]

/-- A one-node state whose mount point was set by mount resolution, for the
enrichment-precedence witness of C7. -/
def c7State : BuildState :=
  { store := [
      { name := "disk1s1", size := 0, type := "part", mountpoint := "/Volumes/Old",
        fstype := "", label := "", uuid := "", parent := none, children := [] }],
    roots := [0] }

/-- 65 valid top-level entries with pairwise distinct identifiers, for the
root-cap witness of C9. -/
def c9Entry (k : Nat) : CFValue :=
  CFValue.dict [("DeviceIdentifier", CFValue.str ("x" ++ toString k))]

def c9Pre : List CFValue := (List.range 64).map c9Entry

def c9Post : List CFValue := [c9Entry 64]

def c1Arr : List CFValue :=
  match dictGet c1Listing "AllDisksAndPartitions" with
  | some (CFValue.arr xs) => xs
  | _ => []

def c1Built : BuildState := (build_tree c1Listing).getD initState

/-- A run whose bulk listing could not be obtained at all. -/
def c8BadInput : MainInput :=
  { rawList := none, mounts := [], infoOf := fun _ => none,
    optF := false, optJ := false, optList := false, optO := none }

/-- A run whose bulk listing parsed but whose mount table and per-device
lookups yield nothing. -/
def c8GoodInput : MainInput :=
  { rawList := some (CFValue.dict [("AllDisksAndPartitions", CFValue.arr [])]),
    mounts := [("nodev", "/x")], infoOf := fun _ => none,
    optF := false, optJ := false, optList := false, optO := none }

/-- A run whose -o list consists solely of unknown column names. -/
def c10Input : MainInput :=
  { rawList := some (CFValue.dict [("AllDisksAndPartitions", CFValue.arr [])]),
    mounts := [], infoOf := fun _ => none,
    optF := false, optJ := false, optList := false, optO := some "FOO,BAR" }

/-- Child lists of nodes `p` and `q` never share a member, the well-formedness
shape used in the C5 statements. -/
def NotAnyChild (st : BuildState) (c : Nat) : Prop :=
  ∀ p, c ∉ (getNode st p).children

/-- Well-formedness of the stored forest: child ids are in range, the parent
back-reference of every stored child matches, every stored child is a leaf,
no id lies in two child lists or twice in one. -/
structure WF (st : BuildState) : Prop where
  closed : ∀ p c, c ∈ (getNode st p).children → c < st.store.length
  par : ∀ p c, c ∈ (getNode st p).children → (getNode st c).parent = some p
  leaf : ∀ p c, c ∈ (getNode st p).children → (getNode st c).children = []
  uniqP : ∀ p q c, c ∈ (getNode st p).children → c ∈ (getNode st q).children → p = q
  nodupL : ∀ p, (getNode st p).children.Nodup

/-! Basic store lemmas. -/

theorem getNode_setNodeF_self (st : BuildState) (i : Nat) (f : NodeData → NodeData)
    (h : i < st.store.length) : getNode (setNodeF st i f) i = f (getNode st i) := by
  simp [getNode, setNodeF, List.getD, List.getElem?_set_self h]

theorem getNode_setNodeF_ne (st : BuildState) (i j : Nat) (f : NodeData → NodeData)
    (h : j ≠ i) : getNode (setNodeF st i f) j = getNode st j := by
  simp [getNode, setNodeF, List.getD, List.getElem?_set_ne (fun e => h e.symm)]

theorem length_setNodeF (st : BuildState) (i : Nat) (f : NodeData → NodeData) :
    (setNodeF st i f).store.length = st.store.length := by
  simp [setNodeF]

theorem roots_setNodeF (st : BuildState) (i : Nat) (f : NodeData → NodeData) :
    (setNodeF st i f).roots = st.roots := rfl

theorem getNode_default (st : BuildState) (i : Nat) (h : st.store.length ≤ i) :
    getNode st i = default := by
  simp [getNode, List.getD, List.getElem?_eq_none h]

/-! C2: content-description classification. -/

/-- Claim C2 (as stated) is false: the APFS-container marker is matched by the
filesystem-signature rule for "APFS", which is checked first, so it maps to
"apfs" rather than the empty string, and a string carrying both the
partition-scheme marker and a filesystem signature likewise maps to the
signature's short name. -/
theorem c2_counterexample :
    content_to_fstype (some "Apple_APFS_Container") = "apfs"
    ∧ content_to_fstype (some "Apple_APFS_Container") ≠ ""
    ∧ content_to_fstype (some "GUID_partition_scheme HFS") = "hfs"
    ∧ content_to_fstype (some "GUID_partition_scheme HFS") ≠ "" := by
  refine ⟨by decide, by decide, by decide, by decide⟩

/-- Amended C2: the filesystem-signature rules are applied before the
partition-scheme rule, so signature short names win on ambiguous content
strings (in particular the APFS-container marker maps to "apfs", not to the
empty string); "GUID_partition_scheme" maps to empty only when no signature
matches; anything unrecognized passes through truncated to 31 characters. -/
theorem c2_amended_rule_order (c : String) :
    ((strstrB c "APFS" || strstrB c "41504653") = true → content_to_fstype (some c) = "apfs")
    ∧ ((strstrB c "APFS" || strstrB c "41504653") = false →
        (strstrB c "HFS" || strstrB c "Apple_HFS") = true → content_to_fstype (some c) = "hfs")
    ∧ ((strstrB c "APFS" || strstrB c "41504653") = false →
        (strstrB c "HFS" || strstrB c "Apple_HFS") = false →
        (strstrB c "EFI" || strstrB c "C12A7328") = true → content_to_fstype (some c) = "vfat")
    ∧ ((strstrB c "APFS" || strstrB c "41504653") = false →
        (strstrB c "HFS" || strstrB c "Apple_HFS") = false →
        (strstrB c "EFI" || strstrB c "C12A7328") = false →
        strstrB c "GUID_partition_scheme" = true → content_to_fstype (some c) = "")
    ∧ ((strstrB c "APFS" || strstrB c "41504653") = false →
        (strstrB c "HFS" || strstrB c "Apple_HFS") = false →
        (strstrB c "EFI" || strstrB c "C12A7328") = false →
        strstrB c "GUID_partition_scheme" = false → content_to_fstype (some c) = c.take 31)
    ∧ (strstrB c "GUID_partition_scheme" = true → strstrB c "APFS" = true →
        content_to_fstype (some c) = "apfs") := by
  refine ⟨?_, ?_, ?_, ?_, ?_, ?_⟩
  · intro h1; simp [content_to_fstype, h1]
  · intro h1 h2; simp [content_to_fstype, h1, h2]
  · intro h1 h2 h3; simp [content_to_fstype, h1, h2, h3]
  · intro h1 h2 h3 h4; simp [content_to_fstype, h1, h2, h3, h4]
  · intro h1 h2 h3 h4; simp [content_to_fstype, h1, h2, h3, h4]
  · intro h1 h2; simp [content_to_fstype, h2]

theorem c2_amended_witness :
    (strstrB "Apple_APFS_Container" "APFS" || strstrB "Apple_APFS_Container" "41504653") = true
    ∧ content_to_fstype (some "Apple_APFS_Container") = "apfs" :=
  ⟨by decide, (c2_amended_rule_order "Apple_APFS_Container").1 (by decide)⟩

/-! C1: the default-column tree scenario. -/

/-- Claim C1 (as stated) is false on one byte: the root row carries a
trailing space, because the MOUNTPOINT cell of the unmounted root is printed
as a separator space followed by the empty value. -/
theorem c1_counterexample :
    (mainRun c1Input).output
      ≠ "NAME SIZE TYPE MOUNTPOINT\ndisk0 113.0G disk\n  └── disk0s1 112.9G part /\n" := by
  decide

/-- Amended C1: the scenario produces the header, the root row
"disk0 113.0G disk " (with a trailing space standing for the empty mount
point), and the child row "  └── disk0s1 112.9G part /", sizes human-scaled
in base 1024 to one decimal place. -/
theorem c1_amended_scenario_output :
    (mainRun c1Input).output
      = "NAME SIZE TYPE MOUNTPOINT\ndisk0 113.0G disk \n  └── disk0s1 112.9G part /\n"
    ∧ (mainRun c1Input).exitCode = 0 := by
  refine ⟨by decide, by decide⟩

/-! C7: enrichment mount-point precedence. -/

theorem mountpoint_setNodeF (st : BuildState) (i j : Nat) (f : NodeData → NodeData)
    (hf : ∀ nd, (f nd).mountpoint = nd.mountpoint) (h : i < st.store.length) :
    (getNode (setNodeF st i f) j).mountpoint = (getNode st j).mountpoint := by
  by_cases hij : j = i
  · subst hij; rw [getNode_setNodeF_self st j f h, hf]
  · rw [getNode_setNodeF_ne st i j f hij]

theorem applyFstype_length (st : BuildState) (i : Nat) (info : CFValue) :
    (applyFstype st i info).store.length = st.store.length := by
  unfold applyFstype; split <;> simp [length_setNodeF]

theorem applyLabel1_length (st : BuildState) (i : Nat) (info : CFValue) :
    (applyLabel1 st i info).store.length = st.store.length := by
  unfold applyLabel1; split <;> first | (split <;> simp [length_setNodeF]) | rfl

theorem applyLabel2_length (st : BuildState) (i : Nat) (info : CFValue) :
    (applyLabel2 st i info).store.length = st.store.length := by
  unfold applyLabel2
  split
  · split <;> first | (split <;> simp [length_setNodeF]) | rfl
  · rfl

theorem applyLabel_length (st : BuildState) (i : Nat) (info : CFValue) :
    (applyLabel st i info).store.length = st.store.length := by
  unfold applyLabel; rw [applyLabel2_length, applyLabel1_length]

theorem applyUuid_length (st : BuildState) (i : Nat) (info : CFValue) :
    (applyUuid st i info).store.length = st.store.length := by
  unfold applyUuid; split <;> split <;> simp [length_setNodeF]

theorem applyFstype_mountpoint (st : BuildState) (i j : Nat) (info : CFValue)
    (h : i < st.store.length) :
    (getNode (applyFstype st i info) j).mountpoint = (getNode st j).mountpoint := by
  unfold applyFstype
  split
  · exact mountpoint_setNodeF st i j _ (fun nd => rfl) h
  · rfl

theorem applyLabel1_mountpoint (st : BuildState) (i j : Nat) (info : CFValue)
    (h : i < st.store.length) :
    (getNode (applyLabel1 st i info) j).mountpoint = (getNode st j).mountpoint := by
  unfold applyLabel1
  split
  · split
    · exact mountpoint_setNodeF st i j _ (fun nd => rfl) h
    · rfl
  · rfl

theorem applyLabel2_mountpoint (st : BuildState) (i j : Nat) (info : CFValue)
    (h : i < st.store.length) :
    (getNode (applyLabel2 st i info) j).mountpoint = (getNode st j).mountpoint := by
  unfold applyLabel2
  split
  · split
    · split
      · exact mountpoint_setNodeF st i j _ (fun nd => rfl) h
      · rfl
    · rfl
  · rfl

theorem applyLabel_mountpoint (st : BuildState) (i j : Nat) (info : CFValue)
    (h : i < st.store.length) :
    (getNode (applyLabel st i info) j).mountpoint = (getNode st j).mountpoint := by
  unfold applyLabel
  rw [applyLabel2_mountpoint _ _ _ _ (by rw [applyLabel1_length]; exact h),
    applyLabel1_mountpoint _ _ _ _ h]

theorem applyUuid_mountpoint (st : BuildState) (i j : Nat) (info : CFValue)
    (h : i < st.store.length) :
    (getNode (applyUuid st i info) j).mountpoint = (getNode st j).mountpoint := by
  unfold applyUuid
  split <;> split <;>
    first
      | exact mountpoint_setNodeF st i j _ (fun nd => rfl) h
      | rfl

/-- Claim C7: when the per-device lookup succeeds and reports a non-empty
mount point, it overwrites whatever mount resolution stored; when the
reported mount point is absent or empty, the prior value is kept. -/
theorem c7_enrichment_mount_precedence (st : BuildState) (i : Nat)
    (kvs : List (String × CFValue)) (h : i < st.store.length) :
    (∀ s, cfstr (dictGet (CFValue.dict kvs) "MountPoint") = some s → s ≠ "" →
      (getNode (fill_info st i (some (CFValue.dict kvs))) i).mountpoint = s)
    ∧ ((cfstr (dictGet (CFValue.dict kvs) "MountPoint") = none ∨
        cfstr (dictGet (CFValue.dict kvs) "MountPoint") = some "") →
      (getNode (fill_info st i (some (CFValue.dict kvs))) i).mountpoint
        = (getNode st i).mountpoint) := by
  have h1 : i < (applyFstype st i (CFValue.dict kvs)).store.length := by
    rw [applyFstype_length]; exact h
  have h2 : i < (applyLabel (applyFstype st i (CFValue.dict kvs)) i (CFValue.dict kvs)).store.length := by
    rw [applyLabel_length]; exact h1
  have h3 : i < (applyUuid (applyLabel (applyFstype st i (CFValue.dict kvs)) i (CFValue.dict kvs)) i
      (CFValue.dict kvs)).store.length := by
    rw [applyUuid_length]; exact h2
  have hpre : (getNode (applyUuid (applyLabel (applyFstype st i (CFValue.dict kvs)) i
      (CFValue.dict kvs)) i (CFValue.dict kvs)) i).mountpoint = (getNode st i).mountpoint := by
    rw [applyUuid_mountpoint _ _ _ _ h2, applyLabel_mountpoint _ _ _ _ h1,
      applyFstype_mountpoint _ _ _ _ h]
  constructor
  · intro s hs hne
    show (getNode (applyMount _ i (CFValue.dict kvs)) i).mountpoint = s
    unfold applyMount
    rw [hs]
    simp only [hne, if_true, ne_eq, not_false_iff]
    rw [getNode_setNodeF_self _ _ _ h3]
  · intro hcase
    show (getNode (applyMount _ i (CFValue.dict kvs)) i).mountpoint
      = (getNode st i).mountpoint
    unfold applyMount
    rcases hcase with hc | hc <;> rw [hc]
    · exact hpre
    · simpa using hpre

theorem c7_witness :
    (getNode (fill_info c7State 0
        (some (CFValue.dict [("MountPoint", CFValue.str "/Volumes/New")]))) 0).mountpoint
      = "/Volumes/New"
    ∧ (getNode (fill_info c7State 0
        (some (CFValue.dict [("MountPoint", CFValue.str "")]))) 0).mountpoint
      = "/Volumes/Old" :=
  ⟨(c7_enrichment_mount_precedence c7State 0 [("MountPoint", CFValue.str "/Volumes/New")]
      (by decide)).1 "/Volumes/New" rfl (by decide),
   ((c7_enrichment_mount_precedence c7State 0 [("MountPoint", CFValue.str "")]
      (by decide)).2 (Or.inr rfl)).trans (by decide)⟩

/-! C10: column parsing never rejects unknown names. -/

theorem parseColsGo_none_iff (ts : List String) (acc : List Col) (h : acc.length ≤ 32) :
    parseColsGo ts acc = none
      ↔ 32 < acc.length + ts.countP (fun t => (lookupCol t).isSome) := by
  induction ts generalizing acc with
  | nil => simp [parseColsGo]; omega
  | cons t ts ih =>
    simp only [parseColsGo, List.countP_cons]
    cases hl : lookupCol t with
    | none =>
      rw [ih acc h]
      simp [hl]
    | some c =>
      simp only [hl, Option.isSome_some, if_true]
      by_cases hlen : 32 ≤ acc.length
      · have : acc.length = 32 := Nat.le_antisymm h hlen
        simp [hlen, this]
      · simp only [hlen, if_false]
        rw [ih (acc ++ [c]) (by simp; omega)]
        simp
        omega

theorem parseColsGo_all_unknown (ts : List String) (acc : List Col)
    (h : ∀ t ∈ ts, lookupCol t = none) : parseColsGo ts acc = some acc := by
  induction ts with
  | nil => rfl
  | cons t ts ih =>
    simp only [parseColsGo, h t (List.mem_cons_self t ts)]
    exact ih (fun x hx => h x (List.mem_cons_of_mem t hx))

/-- Claim C10: tokens that match no column name are skipped without failing
parse_columns; the only parse failure is more than 32 recognized columns; an
all-unknown list yields the empty projection, with which the run still
renders (exit code 0). -/
theorem c10_unknown_columns_skipped :
    (∀ s : String, (parse_columns s = none ↔ 32 < recognizedCount s))
    ∧ (∀ s : String, recognizedCount s = 0 → parse_columns s = some [])
    ∧ (mainRun c10Input).exitCode = 0 ∧ (mainRun c10Input).errors = [] := by
  refine ⟨?_, ?_, by decide, by decide⟩
  · intro s
    rw [parse_columns, parseColsGo_none_iff _ [] (by simp), recognizedCount]
    simp
  · intro s hs
    rw [recognizedCount, List.countP_eq_zero] at hs
    refine parseColsGo_all_unknown _ _ (fun t ht => ?_)
    have := hs t ht
    simpa using this

theorem c10_witness :
    recognizedCount "FOO,BAR" = 0 ∧ parse_columns "FOO,BAR" = some []
    ∧ (parse_columns "FOO,BAR" = none ↔ 32 < recognizedCount "FOO,BAR") :=
  ⟨by decide, c10_unknown_columns_skipped.2.1 "FOO,BAR" (by decide),
    c10_unknown_columns_skipped.1 "FOO,BAR"⟩

/-! C6: mount resolution is best-effort. -/

theorem foldl_fixed {α : Type} (f : BuildState → α → BuildState) (l : List α)
    (st : BuildState) (h : ∀ a ∈ l, f st a = st) : l.foldl f st = st := by
  induction l with
  | nil => rfl
  | cons a l ih =>
    rw [List.foldl_cons, h a (List.mem_cons_self a l)]
    exact ih (fun x hx => h x (List.mem_cons_of_mem a hx))

theorem smr_no_match (fuel : Nat) (st : BuildState) (i : Nat) (src tgt : String)
    (h : subtreeHasName fuel st i src = false) :
    set_mountpoint_recursive fuel st i src tgt = st := by
  induction fuel generalizing i with
  | zero => rfl
  | succ fuel ih =>
    rw [subtreeHasName, Bool.or_eq_false_iff] at h
    obtain ⟨h1, h2⟩ := h
    rw [set_mountpoint_recursive, if_neg (by simpa using h1)]
    refine foldl_fixed _ _ _ (fun c hc => ih c ?_)
    rw [List.any_eq_false] at h2
    simpa using h2 c hc

/-- Claim C6 (as stated) is false in its multiple-match clause: on a forest
with two sibling nodes both named disk9s1, one mount entry for that
identifier updates both of them (the recursion only stops below a matched
node; the sibling loop has no early exit), not just the first one visited in
depth-first order. -/
theorem c6_counterexample :
    (getNode c6State 1).name = "disk9s1" ∧ (getNode c6State 2).name = "disk9s1"
    ∧ (getNode c6State 1).mountpoint = "" ∧ (getNode c6State 2).mountpoint = ""
    ∧ (getNode c6Result 1).mountpoint = "/Volumes/X"
    ∧ (getNode c6Result 2).mountpoint = "/Volumes/X" := by
  refine ⟨by decide, by decide, by decide, by decide, by decide, by decide⟩

/-- Amended C6: mount resolution never fails the run and only adds
information.  Entries whose source lacks the /dev/ prefix change nothing;
entries whose stripped identifier occurs nowhere in any root's subtree change
nothing; and if several nodes shared one identifier, an entry would update
every matching node that has no matching proper ancestor (the walk stops
below a match but visits all siblings) — in particular both of two matching
siblings, not only the first in depth-first order. -/
theorem c6_amended_mount_resolution :
    (∀ (st : BuildState) (src tgt : String), strncmpPfx src "/dev/" = false →
      fillMountEntry st (src, tgt) = st)
    ∧ (∀ (st : BuildState) (src tgt : String), strncmpPfx src "/dev/" = true →
      (∀ r ∈ st.roots, subtreeHasName (st.store.length + 1) st r (src.drop 5) = false) →
      fillMountEntry st (src, tgt) = st)
    ∧ ((getNode c6Result 1).mountpoint = "/Volumes/X"
       ∧ (getNode c6Result 2).mountpoint = "/Volumes/X") := by
  refine ⟨?_, ?_, by decide, by decide⟩
  · intro st src tgt h
    rw [fillMountEntry, if_neg (by simp [h])]
  · intro st src tgt h hn
    rw [fillMountEntry, if_pos (by simp [h])]
    exact foldl_fixed _ _ _ (fun r hr => smr_no_match _ _ _ _ _ (hn r hr))

theorem c6_witness :
    strncmpPfx "nodev/x" "/dev/" = false
    ∧ fillMountEntry c6State ("nodev/x", "/m") = c6State
    ∧ strncmpPfx "/dev/none" "/dev/" = true
    ∧ fillMountEntry c6State ("/dev/none", "/m") = c6State :=
  ⟨by decide,
   c6_amended_mount_resolution.1 c6State "nodev/x" "/m" (by decide),
   by decide,
   c6_amended_mount_resolution.2.1 c6State "/dev/none" "/m" (by decide)
     (by intro r hr; fin_cases hr; decide)⟩

/-! C8: fatal listing failures versus graceful degradation. -/

/-- Claim C8: when the bulk listing is unobtainable, not a dictionary, or
lacks the AllDisksAndPartitions sequence, the run exits 1 with exactly one
diagnostic and no output; for every other input — any mount table, any
per-device lookup behaviour — the run completes with exit 0 and renders
without diagnostics. -/
theorem c8_fatal_vs_degraded (inp : MainInput)
    (h : (parse_output_option inp.optO).isSome) :
    (bulkOk inp.rawList = false →
      (mainRun inp).exitCode = 1 ∧ (mainRun inp).output = ""
        ∧ (mainRun inp).errors.length = 1)
    ∧ (bulkOk inp.rawList = true →
      (mainRun inp).exitCode = 0 ∧ (mainRun inp).errors = []) := by
  obtain ⟨cols0, hc⟩ := Option.isSome_iff_exists.mp h
  constructor
  · intro hb
    match hraw : inp.rawList with
    | none => simp [mainRun, hc, get_list_plist, hraw]
    | some (CFValue.str s) => simp [mainRun, hc, get_list_plist, hraw]
    | some (CFValue.int n) => simp [mainRun, hc, get_list_plist, hraw]
    | some (CFValue.arr xs) => simp [mainRun, hc, get_list_plist, hraw]
    | some (CFValue.dict kvs) =>
      rw [hraw] at hb
      simp only [bulkOk] at hb
      match hd : dictGet (CFValue.dict kvs) "AllDisksAndPartitions" with
      | none => simp [mainRun, hc, get_list_plist, hraw, build_tree, hd]
      | some (CFValue.str s) => simp [mainRun, hc, get_list_plist, hraw, build_tree, hd]
      | some (CFValue.int n) => simp [mainRun, hc, get_list_plist, hraw, build_tree, hd]
      | some (CFValue.dict kvs2) => simp [mainRun, hc, get_list_plist, hraw, build_tree, hd]
      | some (CFValue.arr xs) => rw [hd] at hb; simp at hb
  · intro hb
    match hraw : inp.rawList with
    | none => rw [hraw] at hb; simp [bulkOk] at hb
    | some (CFValue.str s) => rw [hraw] at hb; simp [bulkOk] at hb
    | some (CFValue.int n) => rw [hraw] at hb; simp [bulkOk] at hb
    | some (CFValue.arr xs) => rw [hraw] at hb; simp [bulkOk] at hb
    | some (CFValue.dict kvs) =>
      rw [hraw] at hb
      simp only [bulkOk] at hb
      match hd : dictGet (CFValue.dict kvs) "AllDisksAndPartitions" with
      | none => rw [hd] at hb; simp at hb
      | some (CFValue.str s) => rw [hd] at hb; simp at hb
      | some (CFValue.int n) => rw [hd] at hb; simp at hb
      | some (CFValue.dict kvs2) => rw [hd] at hb; simp at hb
      | some (CFValue.arr xs) =>
        simp [mainRun, hc, get_list_plist, hraw, build_tree, hd]

theorem c8_witness :
    ((mainRun c8BadInput).exitCode = 1 ∧ (mainRun c8BadInput).output = ""
      ∧ (mainRun c8BadInput).errors.length = 1)
    ∧ ((mainRun c8GoodInput).exitCode = 0 ∧ (mainRun c8GoodInput).errors = []) :=
  ⟨(c8_fatal_vs_degraded c8BadInput (by decide)).1 rfl,
   (c8_fatal_vs_degraded c8GoodInput (by decide)).2 rfl⟩

/-! C3: natural ordering of identifiers. -/

/-- Claim C3: at a position where the two identifiers first differ and both
carry decimal digits, name_cmp's loop compares the digit runs numerically
(the strtoul values from the current position), and this yields the spec's
natural order: disk2 before disk10, and disk2s1 before disk2s9 before
disk2s10, both at the comparator and through build_tree's sorting of roots
and children. -/
theorem c3_numeric_ordering :
    (∀ (a b : Char) (as bs : List Char), isDigitC a = true → isDigitC b = true → a ≠ b →
      (strtoulVal (a :: as) < strtoulVal (b :: bs) → cmpChars (a :: as) (b :: bs) = -1)
      ∧ (strtoulVal (b :: bs) < strtoulVal (a :: as) → cmpChars (a :: as) (b :: bs) = 1))
    ∧ name_cmp "disk2" "disk10" < 0
    ∧ name_cmp "disk2s1" "disk2s9" < 0
    ∧ name_cmp "disk2s9" "disk2s10" < 0
    ∧ rootNames c3Built = ["disk2", "disk10"]
    ∧ childNames c3Built (c3Built.roots.getD 0 0) = ["disk2s1", "disk2s9", "disk2s10"] := by
  refine ⟨?_, by decide, by decide, by decide, by decide, by decide⟩
  intro a b as bs ha hb hne
  have has : a ≠ 's' := by
    intro e; subst e; exact absurd ha (by decide)
  have hbs : b ≠ 's' := by
    intro e; subst e; exact absurd hb (by decide)
  constructor
  · intro hlt
    show cmpCharsGo _ _ _ = -1
    rw [cmpCharsGo]
    simp only [if_neg hne, if_neg has, if_neg hbs, ha, hb, Bool.and_self, if_true]
    rw [if_neg (Nat.ne_of_lt hlt), if_neg (by omega)]
  · intro hgt
    show cmpCharsGo _ _ _ = 1
    rw [cmpCharsGo]
    simp only [if_neg hne, if_neg has, if_neg hbs, ha, hb, Bool.and_self, if_true]
    rw [if_neg (by omega), if_pos hgt]

theorem c3_witness :
    isDigitC '2' = true ∧ isDigitC '1' = true
    ∧ strtoulVal ['2'] < strtoulVal ['1', '0']
    ∧ cmpChars ['2'] ['1', '0'] = -1 :=
  ⟨by decide, by decide, by decide,
   (c3_numeric_ordering.1 '2' '1' [] ['0'] (by decide) (by decide) (by decide)).1 (by decide)⟩

/-! Bookkeeping lemmas for the flat index and the root array. -/

theorem findIdxByName_none_iff (nm : String) (l : List NodeData)
    (h : findIdxByName nm l = none) : nm ∉ l.map (fun nd => nd.name) := by
  induction l with
  | nil => simp
  | cons nd rest ih =>
    rw [findIdxByName] at h
    by_cases he : nd.name == nm
    · rw [if_pos he] at h; exact absurd h (by simp)
    · rw [if_neg he] at h
      have hr : findIdxByName nm rest = none := by
        cases hx : findIdxByName nm rest with
        | none => rfl
        | some i => rw [hx] at h; simp at h
      simp only [List.map_cons, List.mem_cons]
      rintro (e | e)
      · exact he (by simp [e])
      · exact ih hr e

theorem findIdxByName_some_spec (nm : String) (l : List NodeData) (i : Nat)
    (h : findIdxByName nm l = some i) :
    i < l.length ∧ (l.getD i default).name = nm := by
  induction l generalizing i with
  | nil => simp [findIdxByName] at h
  | cons nd rest ih =>
    rw [findIdxByName] at h
    by_cases he : nd.name == nm
    · rw [if_pos he] at h
      have : i = 0 := by simpa using h.symm
      subst this
      exact ⟨by simp, by simpa using he⟩
    · rw [if_neg he] at h
      cases hx : findIdxByName nm rest with
      | none => rw [hx] at h; simp at h
      | some j =>
        rw [hx] at h
        have hj : j + 1 = i := by simpa using h
        obtain ⟨h1, h2⟩ := ih j hx
        subst hj
        exact ⟨by simpa using h1, by simpa using h2⟩

theorem names_set_preserve (l : List NodeData) (i : Nat) (f : NodeData → NodeData)
    (hf : ∀ nd, (f nd).name = nd.name) :
    (l.set i (f (l.getD i default))).map (fun nd => nd.name) = l.map (fun nd => nd.name) := by
  induction l generalizing i with
  | nil => simp
  | cons nd rest ih =>
    cases i with
    | zero => simp [hf]
    | succ j => simpa using ih j

theorem names_setNodeF (st : BuildState) (i : Nat) (f : NodeData → NodeData)
    (hf : ∀ nd, (f nd).name = nd.name) : names (setNodeF st i f) = names st :=
  names_set_preserve st.store i f hf

theorem names_node_add_child (st : BuildState) (p c : Nat) :
    names (node_add_child st p c) = names st := by
  unfold node_add_child
  exact (names_setNodeF (setNodeF st c (fun nd => { nd with parent := some p })) p
      (fun nd => { nd with children := nd.children ++ [c] }) (fun nd => rfl)).trans
    (names_setNodeF st c (fun nd => { nd with parent := some p }) (fun nd => rfl))

theorem ensure_node_names (st : BuildState) (nm : String) (sz : Nat) (ty : String) :
    names (ensure_node st nm sz ty).2 = names st
    ∨ (names (ensure_node st nm sz ty).2 = names st ++ [nm] ∧ nm ∉ names st) := by
  unfold ensure_node
  cases hx : findIdxByName nm st.store with
  | some i => exact Or.inl rfl
  | none =>
    refine Or.inr ⟨?_, findIdxByName_none_iff nm st.store hx⟩
    simp [names, node_create]

theorem ensure_node_mem (st : BuildState) (nm : String) (sz : Nat) (ty : String) :
    nm ∈ names (ensure_node st nm sz ty).2 := by
  unfold ensure_node
  cases hx : findIdxByName nm st.store with
  | some i =>
    obtain ⟨h1, h2⟩ := findIdxByName_some_spec nm st.store i hx
    have : st.store.getD i default ∈ st.store := by
      rw [List.getD_eq_getElem st.store default h1]
      exact List.getElem_mem h1
    exact List.mem_map.mpr ⟨_, this, h2⟩
  | none => simp [names, node_create]

theorem ensure_node_spec (st : BuildState) (nm : String) (sz : Nat) (ty : String) :
    (ensure_node st nm sz ty).1 < (ensure_node st nm sz ty).2.store.length
    ∧ (getNode (ensure_node st nm sz ty).2 (ensure_node st nm sz ty).1).name = nm := by
  unfold ensure_node
  cases hx : findIdxByName nm st.store with
  | some i =>
    obtain ⟨h1, h2⟩ := findIdxByName_some_spec nm st.store i hx
    exact ⟨h1, h2⟩
  | none =>
    constructor
    · simp
    · show ((st.store ++ [node_create nm sz ty]).getD st.store.length default).name = nm
      rw [List.getD_append_right _ _ _ _ (Nat.le_refl _)]
      simp [node_create]

theorem nodup_ensure_node (st : BuildState) (nm : String) (sz : Nat) (ty : String)
    (h : (names st).Nodup) : (names (ensure_node st nm sz ty).2).Nodup := by
  rcases ensure_node_names st nm sz ty with he | ⟨he, hnm⟩ <;> rw [he]
  · exact h
  · simp [List.nodup_append, h, hnm]

theorem roots_ensure_node (st : BuildState) (nm : String) (sz : Nat) (ty : String) :
    (ensure_node st nm sz ty).2.roots = st.roots := by
  unfold ensure_node
  cases findIdxByName nm st.store <;> rfl

theorem length_ensure_node (st : BuildState) (nm : String) (sz : Nat) (ty : String) :
    st.store.length ≤ (ensure_node st nm sz ty).2.store.length := by
  unfold ensure_node
  cases findIdxByName nm st.store <;> simp

theorem names_set_fstype (st : BuildState) (i : Nat) (s : String) :
    names (setNodeF st i (fun nd => { nd with fstype := s })) = names st :=
  names_setNodeF st i _ (fun nd => rfl)

theorem names_set_mountpoint (st : BuildState) (i : Nat) (s : String) :
    names (setNodeF st i (fun nd => { nd with mountpoint := s })) = names st :=
  names_setNodeF st i _ (fun nd => rfl)

theorem names_set_label (st : BuildState) (i : Nat) (s : String) :
    names (setNodeF st i (fun nd => { nd with label := s })) = names st :=
  names_setNodeF st i _ (fun nd => rfl)

theorem names_set_uuid (st : BuildState) (i : Nat) (s : String) :
    names (setNodeF st i (fun nd => { nd with uuid := s })) = names st :=
  names_setNodeF st i _ (fun nd => rfl)

theorem roots_node_add_child (st : BuildState) (p c : Nat) :
    (node_add_child st p c).roots = st.roots := rfl

/-- The flat-index name list after add_partition: unchanged, or extended by
the one fresh identifier. -/
theorem names_add_partition (st : BuildState) (t : Nat) (part : CFValue) :
    names (add_partition st t part) = names st
    ∨ ∃ nm, names (add_partition st t part) = names st ++ [nm] ∧ nm ∉ names st := by
  unfold add_partition
  cases hid : cfstr (dictGet part "DeviceIdentifier") with
  | none => exact Or.inl rfl
  | some idstr =>
    dsimp only
    rw [names_node_add_child, names_set_fstype]
    rcases ensure_node_names st idstr (cfint (dictGet part "Size")) "part" with he | ⟨he, hnm⟩
    · exact Or.inl he
    · exact Or.inr ⟨idstr, he, hnm⟩

/-- The flat-index name list after add_apfs_volume: unchanged, or extended by
the one fresh identifier. -/
theorem names_add_apfs_volume (st : BuildState) (t : Nat) (vol : CFValue) :
    names (add_apfs_volume st t vol) = names st
    ∨ ∃ nm, names (add_apfs_volume st t vol) = names st ++ [nm] ∧ nm ∉ names st := by
  unfold add_apfs_volume
  cases hid : cfstr (dictGet vol "DeviceIdentifier") with
  | none => exact Or.inl rfl
  | some idstr =>
    dsimp only
    rw [names_set_fstype]
    have base :
        names (node_add_child (ensure_node st idstr (cfint (dictGet vol "Size")) "part").2 t
            (ensure_node st idstr (cfint (dictGet vol "Size")) "part").1) = names st
        ∨ ∃ nm,
          names (node_add_child (ensure_node st idstr (cfint (dictGet vol "Size")) "part").2 t
              (ensure_node st idstr (cfint (dictGet vol "Size")) "part").1) = names st ++ [nm]
            ∧ nm ∉ names st := by
      rw [names_node_add_child]
      rcases ensure_node_names st idstr (cfint (dictGet vol "Size")) "part" with he | ⟨he, hnm⟩
      · exact Or.inl he
      · exact Or.inr ⟨idstr, he, hnm⟩
    repeat' split
    all_goals try simp only [names_set_uuid, names_set_label, names_set_mountpoint]
    all_goals exact base

theorem foldlPreserve {α : Type} (P : BuildState → Prop) (f : BuildState → α → BuildState)
    (l : List α) (st : BuildState) (hf : ∀ s a, a ∈ l → P s → P (f s a)) (h : P st) :
    P (l.foldl f st) := by
  induction l generalizing st with
  | nil => exact h
  | cons a l ih =>
    rw [List.foldl_cons]
    exact ih (f st a) (fun s x hx => hf s x (List.mem_cons_of_mem a hx))
      (hf st a (List.mem_cons_self a l) h)

theorem nodup_names_add_partition (st : BuildState) (t : Nat) (part : CFValue)
    (h : (names st).Nodup) : (names (add_partition st t part)).Nodup := by
  rcases names_add_partition st t part with he | ⟨nm, he, hnm⟩ <;> rw [he]
  · exact h
  · simp [List.nodup_append, h, hnm]

theorem mem_names_add_partition (st : BuildState) (t : Nat) (part : CFValue) (x : String)
    (h : x ∈ names st) : x ∈ names (add_partition st t part) := by
  rcases names_add_partition st t part with he | ⟨nm, he, hnm⟩ <;> rw [he]
  · exact h
  · exact List.mem_append_left _ h

theorem nodup_names_add_apfs_volume (st : BuildState) (t : Nat) (vol : CFValue)
    (h : (names st).Nodup) : (names (add_apfs_volume st t vol)).Nodup := by
  rcases names_add_apfs_volume st t vol with he | ⟨nm, he, hnm⟩ <;> rw [he]
  · exact h
  · simp [List.nodup_append, h, hnm]

theorem mem_names_add_apfs_volume (st : BuildState) (t : Nat) (vol : CFValue) (x : String)
    (h : x ∈ names st) : x ∈ names (add_apfs_volume st t vol) := by
  rcases names_add_apfs_volume st t vol with he | ⟨nm, he, hnm⟩ <;> rw [he]
  · exact h
  · exact List.mem_append_left _ h

theorem nodup_names_processEntryRest (st : BuildState) (t : Nat) (d : CFValue)
    (h : (names st).Nodup) : (names (processEntryRest st t d)).Nodup := by
  unfold processEntryRest
  split
  · split
    · exact foldlPreserve _ _ _ _ (fun s a _ hp => nodup_names_add_apfs_volume s t a hp)
        (foldlPreserve _ _ _ _ (fun s a _ hp => nodup_names_add_partition s t a hp) h)
    · exact foldlPreserve _ _ _ _ (fun s a _ hp => nodup_names_add_partition s t a hp) h
  · split
    · exact foldlPreserve _ _ _ _ (fun s a _ hp => nodup_names_add_apfs_volume s t a hp) h
    · exact h

theorem mem_names_processEntryRest (st : BuildState) (t : Nat) (d : CFValue) (x : String)
    (h : x ∈ names st) : x ∈ names (processEntryRest st t d) := by
  unfold processEntryRest
  split
  · split
    · exact foldlPreserve _ _ _ _ (fun s a _ hp => mem_names_add_apfs_volume s t a x hp)
        (foldlPreserve _ _ _ _ (fun s a _ hp => mem_names_add_partition s t a x hp) h)
    · exact foldlPreserve _ _ _ _ (fun s a _ hp => mem_names_add_partition s t a x hp) h
  · split
    · exact foldlPreserve _ _ _ _ (fun s a _ hp => mem_names_add_apfs_volume s t a x hp) h
    · exact h

theorem names_roots_update (st : BuildState) (r : List Nat) :
    names { st with roots := r } = names st := rfl

/-- The flat-index name list after processEntryNode: unchanged, or extended
by the entry's fresh identifier. -/
theorem names_processEntryNode (st : BuildState) (d : CFValue) (idstr : String) :
    names (processEntryNode st d idstr).2 = names st
    ∨ (names (processEntryNode st d idstr).2 = names st ++ [idstr] ∧ idstr ∉ names st) := by
  unfold processEntryNode
  dsimp only
  split
  · rw [names_set_fstype]
    exact ensure_node_names st idstr _ _
  · exact ensure_node_names st idstr _ _

theorem nodup_names_processEntryNode (st : BuildState) (d : CFValue) (idstr : String)
    (h : (names st).Nodup) : (names (processEntryNode st d idstr).2).Nodup := by
  rcases names_processEntryNode st d idstr with he | ⟨he, hnm⟩ <;> rw [he]
  · exact h
  · simp [List.nodup_append, h, hnm]

theorem mem_names_processEntryNode (st : BuildState) (d : CFValue) (idstr x : String)
    (h : x ∈ names st) : x ∈ names (processEntryNode st d idstr).2 := by
  rcases names_processEntryNode st d idstr with he | ⟨he, _⟩ <;> rw [he]
  · exact h
  · exact List.mem_append_left _ h

theorem mem_names_processEntryNode_self (st : BuildState) (d : CFValue) (idstr : String) :
    idstr ∈ names (processEntryNode st d idstr).2 := by
  unfold processEntryNode
  dsimp only
  split
  · rw [names_set_fstype]
    exact ensure_node_mem st idstr _ _
  · exact ensure_node_mem st idstr _ _

theorem roots_processEntryNode (st : BuildState) (d : CFValue) (idstr : String) :
    (processEntryNode st d idstr).2.roots = st.roots := by
  unfold processEntryNode
  dsimp only
  split
  · rw [roots_setNodeF, roots_ensure_node]
  · rw [roots_ensure_node]

theorem nodup_names_processEntry (par : Option Nat) (st : BuildState) (d : CFValue)
    (h : (names st).Nodup) : (names (processEntry par st d)).Nodup := by
  unfold processEntry
  repeat' split
  all_goals try exact h
  all_goals dsimp only
  all_goals repeat' split
  all_goals
    first
      | (refine nodup_names_processEntryRest _ _ _ ?_
         simp only [names_node_add_child, names_roots_update]
         exact nodup_names_processEntryNode _ _ _ h)
      | exact nodup_names_processEntryNode _ _ _ h

theorem mem_names_processEntry (par : Option Nat) (st : BuildState) (d : CFValue) (x : String)
    (h : x ∈ names st) : x ∈ names (processEntry par st d) := by
  unfold processEntry
  repeat' split
  all_goals try exact h
  all_goals dsimp only
  all_goals repeat' split
  all_goals
    first
      | (refine mem_names_processEntryRest _ _ _ _ ?_
         simp only [names_node_add_child, names_roots_update]
         exact mem_names_processEntryNode _ _ _ _ h)
      | exact mem_names_processEntryNode _ _ _ _ h

/-- A valid top-level entry leaves its identifier in the flat index. -/
theorem mem_names_processEntry_self (st : BuildState) (d : CFValue) (s : String)
    (h : validTopId d = some s) : s ∈ names (processEntry none st d) := by
  match d with
  | CFValue.str v => simp [validTopId] at h
  | CFValue.int v => simp [validTopId] at h
  | CFValue.arr v => simp [validTopId] at h
  | CFValue.dict kvs =>
    have hid : cfstr (dictGet (CFValue.dict kvs) "DeviceIdentifier") = some s := by
      simpa [validTopId] using h
    unfold processEntry
    rw [hid]
    dsimp only
    repeat' split
    all_goals
      first
        | (refine mem_names_processEntryRest _ _ _ _ ?_
           simp only [names_node_add_child, names_roots_update]
           exact mem_names_processEntryNode_self _ _ _)
        | exact mem_names_processEntryNode_self _ _ _

theorem processEntry_invalid (st : BuildState) (d : CFValue)
    (h : validTopId d = none) : processEntry none st d = st := by
  match d with
  | CFValue.str v => rfl
  | CFValue.int v => rfl
  | CFValue.arr v => rfl
  | CFValue.dict kvs =>
    have hid : cfstr (dictGet (CFValue.dict kvs) "DeviceIdentifier") = none := by
      simpa [validTopId] using h
    unfold processEntry
    rw [hid]

theorem roots_add_partition (st : BuildState) (t : Nat) (part : CFValue) :
    (add_partition st t part).roots = st.roots := by
  unfold add_partition
  split
  · rfl
  · dsimp only
    rw [roots_node_add_child, roots_setNodeF, roots_ensure_node]

theorem roots_add_apfs_volume (st : BuildState) (t : Nat) (vol : CFValue) :
    (add_apfs_volume st t vol).roots = st.roots := by
  unfold add_apfs_volume
  split
  · rfl
  · dsimp only
    rw [roots_setNodeF]
    repeat' split
    all_goals try simp only [roots_setNodeF]
    all_goals rw [roots_node_add_child, roots_ensure_node]

theorem foldl_roots {α : Type} (f : BuildState → α → BuildState) (l : List α)
    (st : BuildState) (hf : ∀ s a, (f s a).roots = s.roots) :
    (l.foldl f st).roots = st.roots := by
  induction l generalizing st with
  | nil => rfl
  | cons a l ih => rw [List.foldl_cons, ih (f st a), hf]

theorem roots_processEntryRest (st : BuildState) (t : Nat) (d : CFValue) :
    (processEntryRest st t d).roots = st.roots := by
  unfold processEntryRest
  repeat' split
  all_goals
    try rw [foldl_roots _ _ _ (fun s a => roots_add_apfs_volume s t a)]
  all_goals
    try rw [foldl_roots _ _ _ (fun s a => roots_add_partition s t a)]
  all_goals rfl


/-- Root bookkeeping of one valid top-level entry: below the cap the entry
appends exactly one root; at the cap the root array is left untouched. -/
theorem processEntry_roots_valid (st : BuildState) (d : CFValue) (s : String)
    (h : validTopId d = some s) :
    (st.roots.length < 64 → ∃ n, (processEntry none st d).roots = st.roots ++ [n])
    ∧ (64 ≤ st.roots.length → (processEntry none st d).roots = st.roots) := by
  match d with
  | CFValue.str v => simp [validTopId] at h
  | CFValue.int v => simp [validTopId] at h
  | CFValue.arr v => simp [validTopId] at h
  | CFValue.dict kvs =>
    have hid : cfstr (dictGet (CFValue.dict kvs) "DeviceIdentifier") = some s := by
      simpa [validTopId] using h
    unfold processEntry
    rw [hid]
    dsimp only
    have hr := roots_processEntryNode st (CFValue.dict kvs) s
    constructor
    · intro hlt
      rw [if_neg (by rw [hr]; omega)]
      refine ⟨(processEntryNode st (CFValue.dict kvs) s).1, ?_⟩
      rw [roots_processEntryRest]
      dsimp only
      rw [hr]
    · intro hge
      rw [if_pos (by rw [hr]; omega)]
      exact hr

theorem countValid_cons_none (d : CFValue) (rest : List CFValue)
    (h : validTopId d = none) : countValid (d :: rest) = countValid rest := by
  simp [countValid, List.filterMap_cons, h]

theorem countValid_cons_some (d : CFValue) (rest : List CFValue) (s : String)
    (h : validTopId d = some s) : countValid (d :: rest) = countValid rest + 1 := by
  simp [countValid, List.filterMap_cons, h]

theorem collect_cons (par : Option Nat) (d : CFValue) (rest : List CFValue)
    (st : BuildState) :
    collect_nodes par (d :: rest) st = collect_nodes par rest (processEntry par st d) := rfl

theorem collect_roots_length (all : List CFValue) :
    ∀ st : BuildState, st.roots.length ≤ 64 →
      (collect_nodes none all st).roots.length = min 64 (st.roots.length + countValid all) := by
  induction all with
  | nil =>
    intro st h
    show st.roots.length = min 64 (st.roots.length + countValid [])
    simp [countValid]
    omega
  | cons d rest ih =>
    intro st h
    rw [collect_cons]
    cases hv : validTopId d with
    | none =>
      rw [processEntry_invalid st d hv, ih st h, countValid_cons_none d rest hv]
    | some s =>
      by_cases hlt : st.roots.length < 64
      · obtain ⟨n, hn⟩ := (processEntry_roots_valid st d s hv).1 hlt
        rw [ih _ (by rw [hn]; simp; omega), hn, countValid_cons_some d rest s hv]
        simp
        omega
      · have h64 : st.roots.length = 64 := by omega
        have hr := (processEntry_roots_valid st d s hv).2 (by omega)
        rw [ih _ (by rw [hr]; omega), hr, countValid_cons_some d rest s hv, h64]
        simp

theorem collect_roots_frozen (all : List CFValue) :
    ∀ st : BuildState, 64 ≤ st.roots.length →
      (collect_nodes none all st).roots = st.roots := by
  induction all with
  | nil => intro st _; rfl
  | cons d rest ih =>
    intro st h
    rw [collect_cons]
    cases hv : validTopId d with
    | none => rw [processEntry_invalid st d hv]; exact ih st h
    | some s =>
      have hr := (processEntry_roots_valid st d s hv).2 h
      rw [ih _ (by rw [hr]; exact h), hr]

theorem mem_names_collect (all : List CFValue) (st : BuildState) (x : String)
    (h : x ∈ names st) : x ∈ names (collect_nodes none all st) :=
  foldlPreserve (fun s => x ∈ names s) _ all st
    (fun s d _ hp => mem_names_processEntry none s d x hp) h

theorem collect_presence (all : List CFValue) :
    ∀ (st : BuildState) (e : CFValue) (s : String), e ∈ all → validTopId e = some s →
      s ∈ names (collect_nodes none all st) := by
  induction all with
  | nil => intro st e s he _; exact absurd he (List.not_mem_nil e)
  | cons d rest ih =>
    intro st e s he hv
    rw [collect_cons]
    rcases List.mem_cons.mp he with rfl | hmem
    · exact mem_names_collect rest _ s (mem_names_processEntry_self st e s hv)
    · exact ih _ e s hmem hv

/-- Claim C9: the forest is capped at 64 roots — the root count is
min 64 (number of valid top-level entries); once 64 valid entries have been
seen, later entries leave the root array untouched; yet every valid entry's
identifier is registered in the flat index. -/
theorem c9_root_cap :
    (∀ all : List CFValue,
      (collect_nodes none all initState).roots.length = min 64 (countValid all))
    ∧ (∀ pre post : List CFValue, 64 ≤ countValid pre →
      (collect_nodes none (pre ++ post) initState).roots
        = (collect_nodes none pre initState).roots)
    ∧ (∀ (all : List CFValue) (e : CFValue) (s : String), e ∈ all →
      validTopId e = some s → s ∈ names (collect_nodes none all initState)) := by
  refine ⟨?_, ?_, ?_⟩
  · intro all
    simpa [initState] using collect_roots_length all initState (by simp [initState])
  · intro pre post hpre
    have hs : collect_nodes none (pre ++ post) initState
        = collect_nodes none post (collect_nodes none pre initState) := by
      simp [collect_nodes, List.foldl_append]
    rw [hs]
    refine collect_roots_frozen post _ ?_
    have hl := collect_roots_length pre initState (by simp [initState])
    have h0 : initState.roots.length = 0 := rfl
    rw [h0, Nat.zero_add] at hl
    rw [hl, Nat.min_eq_left hpre]
  · intro all e s he hv
    exact collect_presence all initState e s he hv

theorem c9_witness :
    64 ≤ countValid c9Pre
    ∧ (collect_nodes none (c9Pre ++ c9Post) initState).roots
        = (collect_nodes none c9Pre initState).roots
    ∧ (collect_nodes none (c9Pre ++ c9Post) initState).roots.length = 64
    ∧ "x64" ∈ names (collect_nodes none (c9Pre ++ c9Post) initState) :=
  ⟨by decide,
   c9_root_cap.2.1 c9Pre c9Post (by decide),
   (c9_root_cap.1 (c9Pre ++ c9Post)).trans (by decide),
   c9_root_cap.2.2 (c9Pre ++ c9Post) (c9Entry 64) "x64"
     (List.mem_append_right _ (List.mem_singleton_self _)) rfl⟩

theorem nodup_names_collect (all : List CFValue) (st : BuildState)
    (h : (names st).Nodup) : (names (collect_nodes none all st)).Nodup :=
  foldlPreserve (fun s => (names s).Nodup) _ all st
    (fun s d _ hp => nodup_names_processEntry none s d hp) h

theorem names_sort_children (fuel : Nat) :
    ∀ (st : BuildState) (i : Nat), names (sort_children fuel st i) = names st := by
  induction fuel with
  | zero => intro st i; rfl
  | succ fuel ih =>
    intro st i
    rw [sort_children]
    split
    · rfl
    · refine (foldlPreserve (fun s => names s = names st) _ _ _
        (fun s c _ hp => (ih s c).trans hp) ?_)
      exact names_setNodeF st i _ (fun nd => rfl)

theorem names_build_tree (plist : CFValue) (st : BuildState)
    (h : build_tree plist = some st) :
    ∃ all, dictGet plist "AllDisksAndPartitions" = some (CFValue.arr all)
      ∧ names st = names (collect_nodes none all initState) := by
  unfold build_tree at h
  split at h
  · rename_i all heq
    refine ⟨all, heq, ?_⟩
    dsimp only at h
    have hst := (Option.some.inj h).symm
    rw [hst]
    exact foldlPreserve (fun s => names s = names (collect_nodes none all initState)) _ _ _
      (fun s c _ hp => (names_sort_children _ s c).trans hp) rfl
  · exact absurd h (by simp)

/-- Claim C4: the flat index holds exactly one node per identifier.
Requesting a node for an identifier already present returns the existing node
(the state — hence every name, size and type field — is unchanged, and the
returned node carries that identifier), and after any successful build the
flat-index names are pairwise distinct. -/
theorem c4_flat_index_unique :
    (∀ (st : BuildState) (nm : String) (sz : Nat) (ty : String), nm ∈ names st →
      (ensure_node st nm sz ty).2 = st
      ∧ (getNode (ensure_node st nm sz ty).2 (ensure_node st nm sz ty).1).name = nm)
    ∧ (∀ (plist : CFValue) (st : BuildState), build_tree plist = some st →
      (names st).Nodup) := by
  constructor
  · intro st nm sz ty hmem
    cases hx : findIdxByName nm st.store with
    | none => exact absurd hmem (findIdxByName_none_iff nm st.store hx)
    | some i =>
      constructor
      · show (ensure_node st nm sz ty).2 = st
        unfold ensure_node
        rw [hx]
      · exact (ensure_node_spec st nm sz ty).2
  · intro plist st h
    obtain ⟨all, _, hn⟩ := names_build_tree plist st h
    rw [hn]
    exact nodup_names_collect all initState (by simp [names, initState])

theorem c4_witness :
    "disk1s1" ∈ names c7State
    ∧ (ensure_node c7State "disk1s1" 7 "part").2 = c7State
    ∧ build_tree c1Listing = some c1Built
    ∧ (names c1Built).Nodup :=
  ⟨by decide,
   (c4_flat_index_unique.1 c7State "disk1s1" 7 "part" (by decide)).1,
   by decide,
   c4_flat_index_unique.2 c1Listing c1Built (by decide)⟩

/-! C5: well-formedness of the built forest. -/

theorem WF_initState : WF initState := by
  have hch : ∀ p, (getNode initState p).children = [] := by
    intro p
    show (([] : List NodeData).getD p default).children = []
    simp [List.getD]
    rfl
  refine ⟨?_, ?_, ?_, ?_, ?_⟩
  · intro p c hc; rw [hch p] at hc; exact absurd hc (List.not_mem_nil c)
  · intro p c hc; rw [hch p] at hc; exact absurd hc (List.not_mem_nil c)
  · intro p c hc; rw [hch p] at hc; exact absurd hc (List.not_mem_nil c)
  · intro p q c hc _; rw [hch p] at hc; exact absurd hc (List.not_mem_nil c)
  · intro p; rw [hch p]; exact List.nodup_nil

theorem findIdxByName_none_of_fresh (nm : String) (st : BuildState)
    (h : nm ∉ names st) : findIdxByName nm st.store = none := by
  cases hx : findIdxByName nm st.store with
  | none => rfl
  | some i =>
    obtain ⟨h1, h2⟩ := findIdxByName_some_spec nm st.store i hx
    exact absurd (List.mem_map.mpr ⟨_, by
      rw [List.getD_eq_getElem st.store default h1]; exact List.getElem_mem h1, h2⟩) h

theorem ensure_fresh_spec (st : BuildState) (nm : String) (sz : Nat) (ty : String)
    (h : nm ∉ names st) :
    ensure_node st nm sz ty
      = (st.store.length, { st with store := st.store ++ [node_create nm sz ty] }) := by
  unfold ensure_node
  rw [findIdxByName_none_of_fresh nm st h]

/-- Appending a node whose child list is empty and whose parent is unset
changes no node's child list or parent field (the default node read off the
end of the store agrees on those two fields). -/
theorem getNode_append_cp (st : BuildState) (x : NodeData) (j : Nat)
    (hc : x.children = []) (hp : x.parent = none) :
    (getNode { st with store := st.store ++ [x] } j).children = (getNode st j).children
    ∧ (getNode { st with store := st.store ++ [x] } j).parent = (getNode st j).parent := by
  rcases Nat.lt_trichotomy j st.store.length with hj | hj | hj
  · rw [show getNode { st with store := st.store ++ [x] } j = getNode st j from
      List.getD_append _ _ _ _ hj]
    exact ⟨rfl, rfl⟩
  · subst hj
    have h1 : getNode { st with store := st.store ++ [x] } st.store.length = x := by
      show (st.store ++ [x]).getD st.store.length default = x
      rw [List.getD_append_right _ _ _ _ (Nat.le_refl _)]
      simp
    have h2 : getNode st st.store.length = default :=
      getNode_default st _ (Nat.le_refl _)
    rw [h1, h2, hc, hp]
    exact ⟨rfl, rfl⟩
  · have h1 : getNode { st with store := st.store ++ [x] } j = default := by
      refine getNode_default _ _ ?_
      simp
      omega
    have h2 : getNode st j = default := getNode_default st _ (by omega)
    rw [h1, h2]
    exact ⟨rfl, rfl⟩

/-- WF only inspects child lists, parent fields, and the store length, so it
survives appending a fresh parentless leaf. -/
theorem WF_append (st : BuildState) (x : NodeData)
    (hc : x.children = []) (hp : x.parent = none) (h : WF st) :
    WF { st with store := st.store ++ [x] } := by
  have hcp := fun j => getNode_append_cp st x j hc hp
  refine ⟨?_, ?_, ?_, ?_, ?_⟩
  · intro p c hmem
    rw [(hcp p).1] at hmem
    have := h.closed p c hmem
    simp
    omega
  · intro p c hmem
    rw [(hcp p).1] at hmem
    rw [(hcp c).2]
    exact h.par p c hmem
  · intro p c hmem
    rw [(hcp p).1] at hmem
    rw [(hcp c).1]
    exact h.leaf p c hmem
  · intro p q c hcp1 hcq
    rw [(hcp p).1] at hcp1
    rw [(hcp q).1] at hcq
    exact h.uniqP p q c hcp1 hcq
  · intro p
    rw [(hcp p).1]
    exact h.nodupL p

/-- A field update that keeps children and parent changes no node's child
list or parent field. -/
theorem getNode_setNodeF_cp (st : BuildState) (i : Nat) (f : NodeData → NodeData)
    (hf : ∀ nd, (f nd).children = nd.children ∧ (f nd).parent = nd.parent) (j : Nat) :
    (getNode (setNodeF st i f) j).children = (getNode st j).children
    ∧ (getNode (setNodeF st i f) j).parent = (getNode st j).parent := by
  by_cases hij : j = i
  · subst hij
    by_cases hj : j < st.store.length
    · rw [getNode_setNodeF_self st j f hj]
      exact hf (getNode st j)
    · have : setNodeF st j f = st := by
        show ({ st with store := st.store.set j _ } : BuildState) = st
        rw [List.set_eq_of_length_le (by omega)]
    
      rw [this]
      exact ⟨rfl, rfl⟩
  · rw [getNode_setNodeF_ne st i j f hij]
    exact ⟨rfl, rfl⟩

theorem WF_setNodeF (st : BuildState) (i : Nat) (f : NodeData → NodeData)
    (hf : ∀ nd, (f nd).children = nd.children ∧ (f nd).parent = nd.parent) (h : WF st) :
    WF (setNodeF st i f) := by
  have hcp := getNode_setNodeF_cp st i f hf
  refine ⟨?_, ?_, ?_, ?_, ?_⟩
  · intro p c hmem
    rw [(hcp p).1] at hmem
    rw [length_setNodeF]
    exact h.closed p c hmem
  · intro p c hmem
    rw [(hcp p).1] at hmem
    rw [(hcp c).2]
    exact h.par p c hmem
  · intro p c hmem
    rw [(hcp p).1] at hmem
    rw [(hcp c).1]
    exact h.leaf p c hmem
  · intro p q c hcp1 hcq
    rw [(hcp p).1] at hcp1
    rw [(hcp q).1] at hcq
    exact h.uniqP p q c hcp1 hcq
  · intro p
    rw [(hcp p).1]
    exact h.nodupL p

theorem WF_roots_update (st : BuildState) (r : List Nat) (h : WF st) :
    WF { st with roots := r } :=
  ⟨h.closed, h.par, h.leaf, h.uniqP, h.nodupL⟩

/-- Pointwise effect of node_add_child: the parent's child list is extended
by the child, the child's parent pointer is set, everything else is kept. -/
theorem node_add_child_desc (st : BuildState) (p c : Nat)
    (hp : p < st.store.length) (hc : c < st.store.length) (hpc : p ≠ c) :
    (∀ j, (getNode (node_add_child st p c) j).children
        = if j = p then (getNode st p).children ++ [c] else (getNode st j).children)
    ∧ (∀ j, (getNode (node_add_child st p c) j).parent
        = if j = c then some p else (getNode st j).parent)
    ∧ (node_add_child st p c).store.length = st.store.length := by
  have hlen1 : (setNodeF st c (fun nd => { nd with parent := some p })).store.length
      = st.store.length := length_setNodeF st c _
  refine ⟨?_, ?_, ?_⟩
  · intro j
    by_cases hjp : j = p
    · rw [hjp, if_pos rfl]
      show (getNode (setNodeF _ p _) p).children = _
      rw [getNode_setNodeF_self _ p _ (by rw [hlen1]; exact hp)]
      have h2 : getNode (setNodeF st c (fun nd => { nd with parent := some p })) p
          = getNode st p := getNode_setNodeF_ne st c p _ hpc
      rw [h2]
    · rw [if_neg hjp]
      show (getNode (setNodeF _ p _) j).children = _
      rw [getNode_setNodeF_ne _ p j _ hjp]
      by_cases hjc : j = c
      · subst hjc
        rw [getNode_setNodeF_self st j _ hc]
      · rw [getNode_setNodeF_ne st c j _ hjc]
  · intro j
    by_cases hjc : j = c
    · rw [hjc, if_pos rfl]
      show (getNode (setNodeF _ p _) c).parent = _
      rw [getNode_setNodeF_ne _ p c _ (Ne.symm hpc), getNode_setNodeF_self st c _ hc]
    · rw [if_neg hjc]
      show (getNode (setNodeF _ p _) j).parent = _
      by_cases hjp : j = p
      · subst hjp
        rw [getNode_setNodeF_self _ j _ (by rw [hlen1]; exact hp),
          getNode_setNodeF_ne st c j _ hjc]
      · rw [getNode_setNodeF_ne _ p j _ hjp, getNode_setNodeF_ne st c j _ hjc]
  · show (setNodeF _ p _).store.length = _
    rw [length_setNodeF, hlen1]

/-- node_add_child keeps the forest well-formed when the child is a fresh
parentless leaf and the parent is not itself anyone's child. -/
theorem WF_node_add_child (st : BuildState) (p c : Nat) (h : WF st)
    (hp : p < st.store.length) (hc : c < st.store.length) (hpc : p ≠ c)
    (hcl : (getNode st c).children = []) (hcn : NotAnyChild st c)
    (hpn : NotAnyChild st p) : WF (node_add_child st p c) := by
  obtain ⟨hch, hpar, hlen⟩ := node_add_child_desc st p c hp hc hpc
  have memch : ∀ q c', c' ∈ (getNode (node_add_child st p c) q).children →
      (q = p ∧ (c' ∈ (getNode st p).children ∨ c' = c))
      ∨ (q ≠ p ∧ c' ∈ (getNode st q).children) := by
    intro q c' hm
    rw [hch q] at hm
    by_cases hq : q = p
    · subst hq
      rw [if_pos rfl] at hm
      rcases List.mem_append.mp hm with hm | hm
      · exact Or.inl ⟨rfl, Or.inl hm⟩
      · exact Or.inl ⟨rfl, Or.inr (List.mem_singleton.mp hm)⟩
    · rw [if_neg hq] at hm
      exact Or.inr ⟨hq, hm⟩
  refine ⟨?_, ?_, ?_, ?_, ?_⟩
  · intro q c' hm
    rw [hlen]
    rcases memch q c' hm with ⟨_, hm2 | rfl⟩ | ⟨_, hm2⟩
    · exact h.closed p c' hm2
    · exact hc
    · exact h.closed q c' hm2
  · intro q c' hm
    rw [hpar c']
    rcases memch q c' hm with ⟨hq, hm2 | rfl⟩ | ⟨hq, hm2⟩
    · rw [if_neg (fun (e : c' = c) => hcn p (e ▸ hm2)), hq]
      exact h.par p c' hm2
    · rw [if_pos rfl, hq]
    · rw [if_neg (fun (e : c' = c) => hcn q (e ▸ hm2))]
      exact h.par q c' hm2
  · intro q c' hm
    have hc'p : c' ≠ p := by
      intro e
      rw [e] at hm
      rcases memch q p hm with ⟨_, hm2 | e2⟩ | ⟨_, hm2⟩
      · exact hpn p hm2
      · exact hpc e2
      · exact hpn q hm2
    rw [hch c', if_neg hc'p]
    rcases memch q c' hm with ⟨_, hm2 | rfl⟩ | ⟨_, hm2⟩
    · exact h.leaf p c' hm2
    · exact hcl
    · exact h.leaf q c' hm2
  · intro q1 q2 c' hm1 hm2
    rcases memch q1 c' hm1 with ⟨hq1, hm1'⟩ | ⟨hq1, hm1'⟩
    · rcases memch q2 c' hm2 with ⟨hq2, hm2'⟩ | ⟨hq2, hm2'⟩
      · rw [hq1, hq2]
      · rcases hm1' with hm1' | rfl
        · exact absurd (h.uniqP p q2 c' hm1' hm2').symm hq2
        · exact absurd hm2' (hcn q2)
    · rcases memch q2 c' hm2 with ⟨hq2, hm2'⟩ | ⟨hq2, hm2'⟩
      · rcases hm2' with hm2' | rfl
        · exact absurd (h.uniqP q1 p c' hm1' hm2') hq1
        · exact absurd hm1' (hcn q1)
      · exact h.uniqP q1 q2 c' hm1' hm2'
  · intro q
    rw [hch q]
    by_cases hq : q = p
    · rw [hq, if_pos rfl]
      exact List.Nodup.append (h.nodupL p) (List.nodup_singleton c)
        (by intro x hx hxc; rw [List.mem_singleton.mp hxc] at hx; exact hcn p hx)
    · rw [if_neg hq]
      exact h.nodupL q

theorem NotAnyChild_of_cp (st st' : BuildState) (x : Nat)
    (hcp : ∀ j, (getNode st' j).children = (getNode st j).children)
    (hx : NotAnyChild st x) : NotAnyChild st' x := by
  intro q
  rw [hcp q]
  exact hx q

theorem NotAnyChild_top (st : BuildState) (h : WF st) : NotAnyChild st st.store.length := by
  intro q hm
  exact absurd (h.closed q _ hm) (Nat.lt_irrefl _)

theorem NotAnyChild_node_add_child (st : BuildState) (p c x : Nat)
    (hp : p < st.store.length) (hc : c < st.store.length) (hpc : p ≠ c)
    (hx : NotAnyChild st x) (hxc : x ≠ c) : NotAnyChild (node_add_child st p c) x := by
  intro q
  rw [(node_add_child_desc st p c hp hc hpc).1 q]
  split
  · intro hm
    rcases List.mem_append.mp hm with hm | hm
    · exact hx p hm
    · exact hxc (List.mem_singleton.mp hm)
  · exact hx q

/-- Attaching a freshly created leaf named `nm` under a live top node keeps
the forest well-formed and keeps the top node out of every child list.  This
is the shared shape of add_partition and add_apfs_volume after their
ensure_node call hits a fresh identifier. -/
theorem WF_attach_fresh (st : BuildState) (nm : String) (sz : Nat) (ty : String)
    (t : Nat) (h : WF st) (ht : t < st.store.length) (htn : NotAnyChild st t)
    (hfr : nm ∉ names st) :
    WF (node_add_child { st with store := st.store ++ [node_create nm sz ty] } t
        st.store.length)
    ∧ t < (node_add_child { st with store := st.store ++ [node_create nm sz ty] } t
        st.store.length).store.length
    ∧ NotAnyChild (node_add_child { st with store := st.store ++ [node_create nm sz ty] } t
        st.store.length) t := by
  have hcA := fun j => getNode_append_cp st (node_create nm sz ty) j rfl rfl
  have hA : WF { st with store := st.store ++ [node_create nm sz ty] } :=
    WF_append st _ rfl rfl h
  have hlenA : ({ st with store := st.store ++ [node_create nm sz ty] } : BuildState).store.length
      = st.store.length + 1 := by simp
  have htA : t < ({ st with store := st.store ++ [node_create nm sz ty] } : BuildState).store.length := by
    rw [hlenA]; omega
  have hcA2 : st.store.length
      < ({ st with store := st.store ++ [node_create nm sz ty] } : BuildState).store.length := by
    rw [hlenA]; omega
  have htc : t ≠ st.store.length := Nat.ne_of_lt ht
  have htnA : NotAnyChild { st with store := st.store ++ [node_create nm sz ty] } t :=
    NotAnyChild_of_cp st _ t (fun j => (hcA j).1) htn
  have hnewn : NotAnyChild { st with store := st.store ++ [node_create nm sz ty] }
      st.store.length := by
    intro q hm
    rw [(hcA q).1] at hm
    exact absurd (h.closed q _ hm) (Nat.lt_irrefl _)
  have hnewl : (getNode { st with store := st.store ++ [node_create nm sz ty] }
      st.store.length).children = [] := by
    show ((st.store ++ [node_create nm sz ty]).getD st.store.length default).children = []
    rw [List.getD_append_right _ _ _ _ (Nat.le_refl _)]
    simp [node_create]
  refine ⟨WF_node_add_child _ t st.store.length hA htA hcA2 htc hnewl hnewn htnA, ?_, ?_⟩
  · rw [(node_add_child_desc _ t st.store.length htA hcA2 htc).2.2, hlenA]
    omega
  · exact NotAnyChild_node_add_child _ t st.store.length t htA hcA2 htc htnA htc

theorem WF_attach_core (stB : BuildState) (t c : Nat) (h : WF stB)
    (ht : t < stB.store.length) (hc : c < stB.store.length) (htc : t ≠ c)
    (hcl : (getNode stB c).children = []) (hcn : NotAnyChild stB c)
    (htn : NotAnyChild stB t) :
    WF (node_add_child stB t c)
    ∧ (node_add_child stB t c).store.length = stB.store.length
    ∧ NotAnyChild (node_add_child stB t c) t :=
  ⟨WF_node_add_child stB t c h ht hc htc hcl hcn htn,
   (node_add_child_desc stB t c ht hc htc).2.2,
   NotAnyChild_node_add_child stB t c t ht hc htc htn htc⟩

theorem step_add_partition (st : BuildState) (t : Nat) (part : CFValue) (h : WF st)
    (ht : t < st.store.length) (htn : NotAnyChild st t)
    (hfresh : ∀ s2, cfstr (dictGet part "DeviceIdentifier") = some s2 → s2 ∉ names st) :
    WF (add_partition st t part) ∧ t < (add_partition st t part).store.length
    ∧ NotAnyChild (add_partition st t part) t := by
  unfold add_partition
  cases hid : cfstr (dictGet part "DeviceIdentifier") with
  | none => exact ⟨h, ht, htn⟩
  | some idstr =>
    dsimp only
    rw [ensure_fresh_spec st idstr (cfint (dictGet part "Size")) "part" (hfresh idstr hid)]
    dsimp only
    set stA : BuildState :=
      { st with store := st.store ++ [node_create idstr (cfint (dictGet part "Size")) "part"] }
      with hAdef
    have hcpA := fun j => getNode_append_cp st
      (node_create idstr (cfint (dictGet part "Size")) "part") j rfl rfl
    have hA : WF stA := WF_append st _ rfl rfl h
    set stB := setNodeF stA st.store.length
      (fun nd => { nd with fstype := content_to_fstype (cfstr (dictGet part "Content")) })
      with hBdef
    have hcpB := getNode_setNodeF_cp stA st.store.length
      (fun nd => { nd with fstype := content_to_fstype (cfstr (dictGet part "Content")) })
      (fun nd => ⟨rfl, rfl⟩)
    have hB : WF stB := WF_setNodeF stA _ _ (fun nd => ⟨rfl, rfl⟩) hA
    have hlenA : stA.store.length = st.store.length + 1 := by
      rw [hAdef]; simp
    have hlenB : stB.store.length = st.store.length + 1 := by
      rw [hBdef, length_setNodeF, hlenA]
    have htB : t < stB.store.length := by rw [hlenB]; omega
    have hcB : st.store.length < stB.store.length := by rw [hlenB]; omega
    have htcB : t ≠ st.store.length := Nat.ne_of_lt ht
    have hclA : (getNode stA st.store.length).children = [] := by
      rw [hAdef]
      show ((st.store ++ [node_create _ _ _]).getD st.store.length default).children = []
      rw [List.getD_append_right _ _ _ _ (Nat.le_refl _)]
      simp [node_create]
    have hclB : (getNode stB st.store.length).children = [] := by
      rw [(hcpB _).1]; exact hclA
    have hcnB : NotAnyChild stB st.store.length := by
      refine NotAnyChild_of_cp stA stB _ (fun j => (hcpB j).1) ?_
      intro q hm
      rw [(hcpA q).1] at hm
      exact absurd (h.closed q _ hm) (Nat.lt_irrefl _)
    have htnB : NotAnyChild stB t :=
      NotAnyChild_of_cp stA stB t (fun j => (hcpB j).1)
        (NotAnyChild_of_cp st stA t (fun j => (hcpA j).1) htn)
    obtain ⟨w1, w2, w3⟩ :=
      WF_attach_core stB t st.store.length hB htB hcB htcB hclB hcnB htnB
    exact ⟨w1, by rw [w2, hlenB]; omega, w3⟩

theorem names_add_partition_valid (st : BuildState) (t : Nat) (part : CFValue) (s : String)
    (hid : cfstr (dictGet part "DeviceIdentifier") = some s) :
    names (add_partition st t part) = names st
    ∨ names (add_partition st t part) = names st ++ [s] := by
  unfold add_partition
  rw [hid]
  dsimp only
  rw [names_node_add_child, names_set_fstype]
  rcases ensure_node_names st s (cfint (dictGet part "Size")) "part" with he | ⟨he, _⟩
  · exact Or.inl he
  · exact Or.inr he

theorem add_partition_skip (st : BuildState) (t : Nat) (part : CFValue)
    (hid : cfstr (dictGet part "DeviceIdentifier") = none) :
    add_partition st t part = st := by
  unfold add_partition
  rw [hid]

theorem step_setNodeF_cp (st : BuildState) (t i : Nat) (f : NodeData → NodeData)
    (hf : ∀ nd, (f nd).children = nd.children ∧ (f nd).parent = nd.parent)
    (h : WF st ∧ t < st.store.length ∧ NotAnyChild st t) :
    WF (setNodeF st i f) ∧ t < (setNodeF st i f).store.length
    ∧ NotAnyChild (setNodeF st i f) t :=
  ⟨WF_setNodeF st i f hf h.1,
   by rw [length_setNodeF]; exact h.2.1,
   NotAnyChild_of_cp st _ t (fun j => (getNode_setNodeF_cp st i f hf j).1) h.2.2⟩

theorem step_add_apfs_volume (st : BuildState) (t : Nat) (vol : CFValue) (h : WF st)
    (ht : t < st.store.length) (htn : NotAnyChild st t)
    (hfresh : ∀ s2, cfstr (dictGet vol "DeviceIdentifier") = some s2 → s2 ∉ names st) :
    WF (add_apfs_volume st t vol) ∧ t < (add_apfs_volume st t vol).store.length
    ∧ NotAnyChild (add_apfs_volume st t vol) t := by
  unfold add_apfs_volume
  cases hid : cfstr (dictGet vol "DeviceIdentifier") with
  | none => exact ⟨h, ht, htn⟩
  | some idstr =>
    dsimp only
    rw [ensure_fresh_spec st idstr (cfint (dictGet vol "Size")) "part" (hfresh idstr hid)]
    dsimp only
    set stA : BuildState :=
      { st with store := st.store ++ [node_create idstr (cfint (dictGet vol "Size")) "part"] }
      with hAdef
    have hcpA := fun j => getNode_append_cp st
      (node_create idstr (cfint (dictGet vol "Size")) "part") j rfl rfl
    have hA : WF stA := WF_append st _ rfl rfl h
    have hlenA : stA.store.length = st.store.length + 1 := by rw [hAdef]; simp
    have htA : t < stA.store.length := by rw [hlenA]; omega
    have hcA : st.store.length < stA.store.length := by rw [hlenA]; omega
    have htcA : t ≠ st.store.length := Nat.ne_of_lt ht
    have hclA : (getNode stA st.store.length).children = [] := by
      rw [hAdef]
      show ((st.store ++ [node_create _ _ _]).getD st.store.length default).children = []
      rw [List.getD_append_right _ _ _ _ (Nat.le_refl _)]
      simp [node_create]
    have hcnA : NotAnyChild stA st.store.length := by
      intro q hm
      rw [(hcpA q).1] at hm
      exact absurd (h.closed q _ hm) (Nat.lt_irrefl _)
    have htnA : NotAnyChild stA t :=
      NotAnyChild_of_cp st stA t (fun j => (hcpA j).1) htn
    obtain ⟨w1, w2, w3⟩ :=
      WF_attach_core stA t st.store.length hA htA hcA htcA hclA hcnA htnA
    have h1 : WF (node_add_child stA t st.store.length)
        ∧ t < (node_add_child stA t st.store.length).store.length
        ∧ NotAnyChild (node_add_child stA t st.store.length) t :=
      ⟨w1, by rw [w2, hlenA]; omega, w3⟩
    repeat' split
    all_goals
      repeat
        first
          | exact h1
          | refine step_setNodeF_cp _ t _ _ (fun nd => ⟨rfl, rfl⟩) ?_

theorem names_add_apfs_volume_valid (st : BuildState) (t : Nat) (vol : CFValue) (s : String)
    (hid : cfstr (dictGet vol "DeviceIdentifier") = some s) :
    names (add_apfs_volume st t vol) = names st
    ∨ names (add_apfs_volume st t vol) = names st ++ [s] := by
  unfold add_apfs_volume
  rw [hid]
  dsimp only
  rw [names_set_fstype]
  have base : names (node_add_child (ensure_node st s (cfint (dictGet vol "Size")) "part").2 t
        (ensure_node st s (cfint (dictGet vol "Size")) "part").1) = names st
      ∨ names (node_add_child (ensure_node st s (cfint (dictGet vol "Size")) "part").2 t
        (ensure_node st s (cfint (dictGet vol "Size")) "part").1) = names st ++ [s] := by
    rw [names_node_add_child]
    rcases ensure_node_names st s (cfint (dictGet vol "Size")) "part" with he | ⟨he, _⟩
    · exact Or.inl he
    · exact Or.inr he
  repeat' split
  all_goals try simp only [names_set_uuid, names_set_label, names_set_mountpoint]
  all_goals exact base

theorem add_apfs_volume_skip (st : BuildState) (t : Nat) (vol : CFValue)
    (hid : cfstr (dictGet vol "DeviceIdentifier") = none) :
    add_apfs_volume st t vol = st := by
  unfold add_apfs_volume
  rw [hid]

/-- Folding a child-adding step (add_partition or add_apfs_volume) over a
sub-sequence whose identifiers are fresh and pairwise distinct keeps the
forest well-formed, keeps the top node live and out of all child lists, and
grows the name list only by those identifiers. -/
theorem fold_children_WF {α : Type} (stepf : BuildState → Nat → α → BuildState)
    (pid : α → Option String)
    (hstep : ∀ st t a, WF st → t < st.store.length → NotAnyChild st t →
      (∀ s2, pid a = some s2 → s2 ∉ names st) →
      WF (stepf st t a) ∧ t < (stepf st t a).store.length ∧ NotAnyChild (stepf st t a) t)
    (hskip : ∀ st t a, pid a = none → stepf st t a = st)
    (hnames : ∀ st t a s, pid a = some s →
      names (stepf st t a) = names st ∨ names (stepf st t a) = names st ++ [s])
    (l : List α) :
    ∀ (st : BuildState) (t : Nat), WF st → t < st.store.length → NotAnyChild st t →
    (∀ x ∈ l.filterMap pid, x ∉ names st) → (l.filterMap pid).Nodup →
    WF (l.foldl (fun s a => stepf s t a) st)
    ∧ t < (l.foldl (fun s a => stepf s t a) st).store.length
    ∧ NotAnyChild (l.foldl (fun s a => stepf s t a) st) t
    ∧ ∀ x ∈ names (l.foldl (fun s a => stepf s t a) st),
        x ∈ names st ∨ x ∈ l.filterMap pid := by
  induction l with
  | nil => intro st t h ht htn _ _; exact ⟨h, ht, htn, fun x hx => Or.inl hx⟩
  | cons a rest ih =>
    intro st t h ht htn hfresh hnodup
    rw [List.foldl_cons]
    cases hpa : pid a with
    | none =>
      rw [hskip st t a hpa]
      simp only [List.filterMap_cons, hpa] at hfresh hnodup ⊢
      exact ih st t h ht htn hfresh hnodup
    | some s =>
      simp only [List.filterMap_cons, hpa] at hfresh hnodup ⊢
      have hfr : ∀ s2, pid a = some s2 → s2 ∉ names st := by
        intro s2 he
        rw [hpa] at he
        cases he
        exact hfresh s (List.mem_cons_self _ _)
      obtain ⟨h1, ht1, htn1⟩ := hstep st t a h ht htn hfr
      have hn1 := hnames st t a s hpa
      have hfresh1 : ∀ x ∈ rest.filterMap pid, x ∉ names (stepf st t a) := by
        intro x hx
        have hxs : x ≠ s := by
          intro e
          rw [e] at hx
          exact (List.nodup_cons.mp hnodup).1 hx
        have hxn : x ∉ names st := hfresh x (List.mem_cons_of_mem _ hx)
        rcases hn1 with he | he <;> rw [he]
        · exact hxn
        · intro hmem
          rcases List.mem_append.mp hmem with hm | hm
          · exact hxn hm
          · exact hxs (List.mem_singleton.mp hm)
      obtain ⟨h2, ht2, htn2, hsub⟩ := ih (stepf st t a) t h1 ht1 htn1 hfresh1
        (List.nodup_cons.mp hnodup).2
      refine ⟨h2, ht2, htn2, fun x hx => ?_⟩
      rcases hsub x hx with hm | hm
      · rcases hn1 with he | he
        · rw [he] at hm
          exact Or.inl hm
        · rw [he] at hm
          rcases List.mem_append.mp hm with hm | hm
          · exact Or.inl hm
          · exact Or.inr (List.mem_cons.mpr (Or.inl (List.mem_singleton.mp hm)))
      · exact Or.inr (List.mem_cons_of_mem _ hm)

/-- processEntryRest on fresh, pairwise-distinct nested identifiers. -/
theorem step_processEntryRest (st : BuildState) (t : Nat) (d : CFValue) (h : WF st)
    (ht : t < st.store.length) (htn : NotAnyChild st t)
    (hfresh : ∀ x ∈ subIds d "Partitions" ++ subIds d "APFSVolumes", x ∉ names st)
    (hnodup : (subIds d "Partitions" ++ subIds d "APFSVolumes").Nodup) :
    WF (processEntryRest st t d)
    ∧ ∀ x ∈ names (processEntryRest st t d),
        x ∈ names st ∨ x ∈ subIds d "Partitions" ++ subIds d "APFSVolumes" := by
  have hpnodup := (List.nodup_append.mp hnodup).1
  have hvnodup := (List.nodup_append.mp hnodup).2.1
  have hdisj := (List.nodup_append.mp hnodup).2.2
  unfold processEntryRest
  have foldP := fold_children_WF (fun s t a => add_partition s t a)
    (fun x => cfstr (dictGet x "DeviceIdentifier"))
    (fun st t a h ht htn hf => step_add_partition st t a h ht htn hf)
    (fun st t a hid => add_partition_skip st t a hid)
    (fun st t a s hid => names_add_partition_valid st t a s hid)
  have foldV := fold_children_WF (fun s t a => add_apfs_volume s t a)
    (fun x => cfstr (dictGet x "DeviceIdentifier"))
    (fun st t a h ht htn hf => step_add_apfs_volume st t a h ht htn hf)
    (fun st t a hid => add_apfs_volume_skip st t a hid)
    (fun st t a s hid => names_add_apfs_volume_valid st t a s hid)
  split
  · rename_i parts hpeq
    have hsubP : subIds d "Partitions" = parts.filterMap
        (fun x => cfstr (dictGet x "DeviceIdentifier")) := by
      simp [subIds, hpeq]
    obtain ⟨h1, ht1, htn1, hsub1⟩ := foldP parts st t h ht htn
      (by rw [← hsubP]; exact fun x hx => hfresh x (List.mem_append_left _ hx))
      (by rw [← hsubP]; exact hpnodup)
    split
    · rename_i vols hveq
      have hsubV : subIds d "APFSVolumes" = vols.filterMap
          (fun x => cfstr (dictGet x "DeviceIdentifier")) := by
        simp [subIds, hveq]
      obtain ⟨h2, _, _, hsub2⟩ := foldV vols _ t h1 ht1 htn1
        (by
          rw [← hsubV]
          intro x hx hmem
          rcases hsub1 x hmem with hm | hm
          · exact hfresh x (List.mem_append_right _ hx) hm
          · rw [← hsubP] at hm
            exact hdisj hm hx)
        (by rw [← hsubV]; exact hvnodup)
      refine ⟨h2, fun x hx => ?_⟩
      rcases hsub2 x hx with hm | hm
      · rcases hsub1 x hm with hm2 | hm2
        · exact Or.inl hm2
        · rw [← hsubP] at hm2
          exact Or.inr (List.mem_append_left _ hm2)
      · rw [← hsubV] at hm
        exact Or.inr (List.mem_append_right _ hm)
    · refine ⟨h1, fun x hx => ?_⟩
      rcases hsub1 x hx with hm | hm
      · exact Or.inl hm
      · rw [← hsubP] at hm
        exact Or.inr (List.mem_append_left _ hm)
  · split
    · rename_i vols hveq
      have hsubV : subIds d "APFSVolumes" = vols.filterMap
          (fun x => cfstr (dictGet x "DeviceIdentifier")) := by
        simp [subIds, hveq]
      obtain ⟨h2, _, _, hsub2⟩ := foldV vols st t h ht htn
        (by rw [← hsubV]; exact fun x hx => hfresh x (List.mem_append_right _ hx))
        (by rw [← hsubV]; exact hvnodup)
      refine ⟨h2, fun x hx => ?_⟩
      rcases hsub2 x hx with hm | hm
      · exact Or.inl hm
      · rw [← hsubV] at hm
        exact Or.inr (List.mem_append_right _ hm)
    · exact ⟨h, fun x hx => Or.inl hx⟩

theorem ensure_fresh_wf (st : BuildState) (nm : String) (sz : Nat) (ty : String)
    (h : WF st) (hfr : nm ∉ names st) :
    WF (ensure_node st nm sz ty).2
    ∧ (ensure_node st nm sz ty).1 < (ensure_node st nm sz ty).2.store.length
    ∧ NotAnyChild (ensure_node st nm sz ty).2 (ensure_node st nm sz ty).1 := by
  rw [ensure_fresh_spec st nm sz ty hfr]
  dsimp only
  have hcpA := fun j => getNode_append_cp st (node_create nm sz ty) j rfl rfl
  refine ⟨WF_append st _ rfl rfl h, by simp, ?_⟩
  intro q hm
  rw [(hcpA q).1] at hm
  exact absurd (h.closed q _ hm) (Nat.lt_irrefl _)

/-- processEntryNode on a fresh identifier: the created node is live and out
of every child list, and the forest stays well-formed. -/
theorem processEntryNode_fresh (st : BuildState) (d : CFValue) (idstr : String)
    (h : WF st) (hfr : idstr ∉ names st) :
    WF (processEntryNode st d idstr).2
    ∧ (processEntryNode st d idstr).1 < (processEntryNode st d idstr).2.store.length
    ∧ NotAnyChild (processEntryNode st d idstr).2 (processEntryNode st d idstr).1 := by
  unfold processEntryNode
  dsimp only
  split
  · dsimp only
    refine ⟨?_, ?_, ?_⟩
    · exact WF_setNodeF _ _ _ (fun nd => ⟨rfl, rfl⟩) (ensure_fresh_wf st idstr _ _ h hfr).1
    · rw [length_setNodeF]
      exact (ensure_fresh_wf st idstr _ _ h hfr).2.1
    · exact NotAnyChild_of_cp _ _ _
        (fun j => (getNode_setNodeF_cp _ _
          (fun nd => { nd with fstype := content_to_fstype (cfstr (dictGet d "Content")) })
          (fun nd => ⟨rfl, rfl⟩) j).1)
        (ensure_fresh_wf st idstr _ _ h hfr).2.2
  · exact ensure_fresh_wf st idstr _ _ h hfr

/-- One top-level entry with fresh, pairwise-distinct identifiers keeps the
collected forest well-formed, growing the name list only by those ids. -/
theorem step_processEntry (st : BuildState) (d : CFValue) (h : WF st)
    (hfresh : ∀ x ∈ entryIds d, x ∉ names st) (hnodup : (entryIds d).Nodup) :
    WF (processEntry none st d)
    ∧ ∀ x ∈ names (processEntry none st d), x ∈ names st ∨ x ∈ entryIds d := by
  cases hv : validTopId d with
  | none =>
    rw [processEntry_invalid st d hv]
    exact ⟨h, fun x hx => Or.inl hx⟩
  | some s =>
    have hIds : entryIds d = s :: (subIds d "Partitions" ++ subIds d "APFSVolumes") := by
      rw [entryIds, hv]
    rw [hIds] at hfresh hnodup
    have hsfr : s ∉ names st := hfresh s (List.mem_cons_self _ _)
    match d with
    | CFValue.str v => simp [validTopId] at hv
    | CFValue.int v => simp [validTopId] at hv
    | CFValue.arr v => simp [validTopId] at hv
    | CFValue.dict kvs =>
      have hid : cfstr (dictGet (CFValue.dict kvs) "DeviceIdentifier") = some s := by
        simpa [validTopId] using hv
      unfold processEntry
      rw [hid]
      dsimp only
      rw [show entryIds (CFValue.dict kvs)
        = s :: (subIds (CFValue.dict kvs) "Partitions"
          ++ subIds (CFValue.dict kvs) "APFSVolumes") from by
          rw [entryIds]; simp [validTopId, hid]]
      obtain ⟨w1, w2, w3⟩ := processEntryNode_fresh st (CFValue.dict kvs) s h hsfr
      have hnames := names_processEntryNode st (CFValue.dict kvs) s
      have hsubfr : ∀ x ∈ subIds (CFValue.dict kvs) "Partitions"
          ++ subIds (CFValue.dict kvs) "APFSVolumes",
          x ∉ names (processEntryNode st (CFValue.dict kvs) s).2 := by
        intro x hx
        have hxs : x ≠ s := by
          intro e
          rw [e] at hx
          exact (List.nodup_cons.mp hnodup).1 hx
        have hxn : x ∉ names st := hfresh x (List.mem_cons_of_mem _ hx)
        rcases hnames with he | ⟨he, _⟩ <;> rw [he]
        · exact hxn
        · intro hmem
          rcases List.mem_append.mp hmem with hm | hm
          · exact hxn hm
          · exact hxs (List.mem_singleton.mp hm)
      have hmemN : ∀ x ∈ names (processEntryNode st (CFValue.dict kvs) s).2,
          x ∈ names st ∨ x = s := by
        intro x hx
        rcases hnames with he | ⟨he, _⟩
        · rw [he] at hx; exact Or.inl hx
        · rw [he] at hx
          rcases List.mem_append.mp hx with hm | hm
          · exact Or.inl hm
          · exact Or.inr (List.mem_singleton.mp hm)
      split
      · exact ⟨w1, fun x hx => by
          rcases hmemN x hx with hm | rfl
          · exact Or.inl hm
          · exact Or.inr (List.mem_cons_self _ _)⟩
      · obtain ⟨f1, f2⟩ := step_processEntryRest
          { (processEntryNode st (CFValue.dict kvs) s).2 with
            roots := (processEntryNode st (CFValue.dict kvs) s).2.roots
              ++ [(processEntryNode st (CFValue.dict kvs) s).1] }
          (processEntryNode st (CFValue.dict kvs) s).1 (CFValue.dict kvs)
          (WF_roots_update _ _ w1) w2
          (by
            intro q hm
            exact w3 q hm)
          (by
            intro x hx
            exact hsubfr x hx)
          (List.nodup_cons.mp hnodup).2
        refine ⟨f1, fun x hx => ?_⟩
        rcases f2 x hx with hm | hm
        · rcases hmemN x hm with hm2 | rfl
          · exact Or.inl hm2
          · exact Or.inr (List.mem_cons_self _ _)
        · exact Or.inr (List.mem_cons_of_mem _ hm)

/-- A whole bulk listing with pairwise-distinct identifiers collects into a
well-formed forest. -/
theorem collect_WF (all : List CFValue) :
    ∀ st : BuildState, WF st → (listingIds all).Nodup →
    (∀ x ∈ listingIds all, x ∉ names st) →
    WF (collect_nodes none all st)
    ∧ ∀ x ∈ names (collect_nodes none all st), x ∈ names st ∨ x ∈ listingIds all := by
  induction all with
  | nil => intro st h _ _; exact ⟨h, fun x hx => Or.inl hx⟩
  | cons d rest ih =>
    intro st h hnodup hfresh
    rw [collect_cons]
    have hL : listingIds (d :: rest) = entryIds d ++ listingIds rest := by
      simp [listingIds]
    rw [hL] at hnodup hfresh ⊢
    have hdn := List.nodup_append.mp hnodup
    obtain ⟨w1, w2⟩ := step_processEntry st d h
      (fun x hx => hfresh x (List.mem_append_left _ hx)) hdn.1
    have hfresh2 : ∀ x ∈ listingIds rest, x ∉ names (processEntry none st d) := by
      intro x hx hmem
      rcases w2 x hmem with hm | hm
      · exact hfresh x (List.mem_append_right _ hx) hm
      · exact hdn.2.2 hm hx
    obtain ⟨f1, f2⟩ := ih (processEntry none st d) w1 hdn.2.1 hfresh2
    refine ⟨f1, fun x hx => ?_⟩
    rcases f2 x hx with hm | hm
    · rcases w2 x hm with hm2 | hm2
      · exact Or.inl hm2
      · exact Or.inr (List.mem_append_left _ hm2)
    · exact Or.inr (List.mem_append_right _ hm)

theorem insertSorted_perm (le : Nat → Nat → Bool) (x : Nat) (l : List Nat) :
    List.Perm (insertSorted le x l) (x :: l) := by
  induction l with
  | nil => exact List.Perm.refl _
  | cons y ys ih =>
    rw [insertSorted]
    split
    · exact List.Perm.refl _
    · exact (List.Perm.cons y ih).trans (List.Perm.swap x y ys)

theorem sortByLe_perm (le : Nat → Nat → Bool) (l : List Nat) :
    List.Perm (sortByLe le l) l := by
  induction l with
  | nil => exact List.Perm.refl _
  | cons x xs ih =>
    rw [sortByLe]
    exact (insertSorted_perm le x (sortByLe le xs)).trans (List.Perm.cons x ih)

theorem getNode_setNodeF_parentEq (st : BuildState) (i : Nat) (f : NodeData → NodeData)
    (hf : ∀ nd, (f nd).parent = nd.parent) (j : Nat) :
    (getNode (setNodeF st i f) j).parent = (getNode st j).parent := by
  by_cases hij : j = i
  · by_cases hj : i < st.store.length
    · rw [hij, getNode_setNodeF_self st i f hj, hf]
    · have he : setNodeF st i f = st := by
        show ({ st with store := st.store.set i _ } : BuildState) = st
        rw [List.set_eq_of_length_le (by omega)]
      rw [he]
  · rw [getNode_setNodeF_ne st i j f hij]

theorem getNode_setNodeF_childrenAt (st : BuildState) (i : Nat) (l' : List Nat) (j : Nat) :
    (getNode (setNodeF st i (fun nd => { nd with children := l' })) j).children
      = if j = i ∧ i < st.store.length then l' else (getNode st j).children := by
  by_cases hij : j = i
  · by_cases hj : i < st.store.length
    · rw [hij, getNode_setNodeF_self st i _ hj, if_pos ⟨rfl, hj⟩]
  
    · have he : setNodeF st i (fun nd => { nd with children := l' }) = st := by
        show ({ st with store := st.store.set i _ } : BuildState) = st
        rw [List.set_eq_of_length_le (by omega)]
      rw [he, if_neg (fun hc => hj hc.2)]
  · rw [getNode_setNodeF_ne st i j _ hij, if_neg (fun hc => hij hc.1)]

/-- Replacing one node's child list by a permutation of itself preserves
well-formedness. -/
theorem WF_permute_children (st : BuildState) (i : Nat) (l' : List Nat)
    (hperm : List.Perm l' (getNode st i).children) (h : WF st) :
    WF (setNodeF st i (fun nd => { nd with children := l' })) := by
  have hch := getNode_setNodeF_childrenAt st i l'
  have hpar := getNode_setNodeF_parentEq st i (fun nd => { nd with children := l' })
    (fun nd => rfl)
  have hmem : ∀ j c, c ∈ (getNode (setNodeF st i (fun nd => { nd with children := l' })) j).children
      → c ∈ (getNode st j).children := by
    intro j c hc
    rw [hch j] at hc
    split at hc
    · rename_i hcond
      rw [hcond.1]
      exact hperm.mem_iff.mp hc
    · exact hc
  refine ⟨?_, ?_, ?_, ?_, ?_⟩
  · intro p c hm
    rw [length_setNodeF]
    exact h.closed p c (hmem p c hm)
  · intro p c hm
    rw [hpar c]
    exact h.par p c (hmem p c hm)
  · intro p c hm
    rw [hch c]
    split
    · rename_i hcond
      have hnil : (getNode st i).children = [] := by
        rw [← hcond.1]
        exact h.leaf p c (hmem p c hm)
      exact List.Perm.eq_nil (hnil ▸ hperm)
    · exact h.leaf p c (hmem p c hm)
  · intro p q c hm1 hm2
    exact h.uniqP p q c (hmem p c hm1) (hmem q c hm2)
  · intro p
    rw [hch p]
    split
    · exact hperm.nodup_iff.mpr (h.nodupL i)
    · exact h.nodupL p

theorem WF_sort_children (fuel : Nat) :
    ∀ (st : BuildState) (i : Nat), WF st → WF (sort_children fuel st i) := by
  induction fuel with
  | zero => intro st i h; exact h
  | succ fuel ih =>
    intro st i h
    rw [sort_children]
    split
    · exact h
    · exact foldlPreserve WF _ _ _ (fun s c _ hp => ih s c hp)
        (WF_permute_children st i _ (sortByLe_perm _ _) h)

/-- Acyclicity from well-formedness: every stored child is a leaf, so no
nonempty chain of child edges returns to its origin. -/
theorem WF_no_self_ancestor (st : BuildState) (h : WF st) (i : Nat) :
    ¬ Relation.TransGen (childRel st) i i := by
  intro htg
  cases htg with
  | single hr =>
    have := h.leaf i i hr
    rw [childRel, this] at hr
    exact absurd hr (List.not_mem_nil i)
  | tail htg' hr =>
    have hleaf := h.leaf _ i hr
    obtain ⟨b, hb, _⟩ := Relation.TransGen.head'_iff.mp htg'
    rw [childRel, hleaf] at hb
    exact absurd hb (List.not_mem_nil b)

/-- Claim C5 (as stated) is false: on a listing whose whole-disk entry lists
itself as its own partition, the builder re-fetches the existing node and
attaches it to itself, so the built forest contains a node that is its own
child — hence its own ancestor. -/
theorem c5_counterexample :
    build_tree c5Listing = some c5Built
    ∧ (getNode c5Built 0).name = "disk0"
    ∧ 0 ∈ (getNode c5Built 0).children
    ∧ Relation.TransGen (childRel c5Built) 0 0 := by
  refine ⟨by decide, by decide, by decide, Relation.TransGen.single ?_⟩
  show 0 ∈ (getNode c5Built 0).children
  decide

/-- Amended C5: for every bulk listing in which no device identifier occurs
more than once across its top-level, partition and APFS-volume entries, the
built forest is well-formed — each stored child's parent back-reference
matches, no node lies in two child lists or twice in one, and no node is its
own ancestor. -/
theorem c5_amended_well_formed (plist : CFValue) (all : List CFValue) (st : BuildState)
    (hall : dictGet plist "AllDisksAndPartitions" = some (CFValue.arr all))
    (hnodup : (listingIds all).Nodup)
    (hb : build_tree plist = some st) :
    (∀ p c, c ∈ (getNode st p).children → (getNode st c).parent = some p)
    ∧ (∀ p q c, c ∈ (getNode st p).children → c ∈ (getNode st q).children → p = q)
    ∧ (∀ p, (getNode st p).children.Nodup)
    ∧ (∀ i, ¬ Relation.TransGen (childRel st) i i) := by
  have hWF : WF st := by
    unfold build_tree at hb
    rw [hall] at hb
    dsimp only at hb
    have hst := (Option.some.inj hb).symm
    rw [hst]
    refine WF_roots_update _ _ ?_
    refine foldlPreserve WF _ _ _ (fun s c _ hp => WF_sort_children _ s c hp) ?_
    exact (collect_WF all initState WF_initState hnodup
      (fun x _ hx => by simp [names, initState] at hx)).1
  exact ⟨hWF.par, hWF.uniqP, hWF.nodupL, fun i => WF_no_self_ancestor st hWF i⟩

theorem c5_witness :
    (listingIds c1Arr).Nodup
    ∧ (getNode c1Built 1).parent = some 0
    ∧ ¬ Relation.TransGen (childRel c1Built) 0 0 :=
  ⟨by decide,
   (c5_amended_well_formed c1Listing c1Arr c1Built rfl (by decide) (by decide)).1 0 1
     (by decide),
   (c5_amended_well_formed c1Listing c1Arr c1Built rfl (by decide) (by decide)).2.2.2 0⟩
